import Mathlib

/-!
telegraf-mesos-tasks: grouping, averaging and rendering of Mesos task statistics

A shallow embedding of `telegraf-mesos-tasks.go`.

* Go maps with string keys are association lists with pairwise distinct keys
  (`AList`).  A `for k, v := range m` loop is a left fold over the entries; the
  order of the entries stands for the (unspecified) iteration order of the map.
* `float64` values are rational numbers: all arithmetic is exact.
* A failed type assertion `x.(float64)` is a panic, modelled by `none`.
-/

namespace MesosTasks

/-! ## Go maps -/

/-- The Go type `map[string]float64`. -/
abbrev Metrics := AList (fun _ : String => ℚ)

/-- The Go type `map[string][]map[string]float64`. -/
abbrev TasksMap := AList (fun _ : String => List Metrics)

/-- The Go type `map[string]map[string]float64`. -/
abbrev AvgMap := AList (fun _ : String => Metrics)

/-- The Go index expression `m[key]` on a `map[string]float64`: the zero value
when the key is missing. -/
def getValue (m : Metrics) (key : String) : ℚ :=
  (m.lookup key).getD 0

/-! ## avgMetrics -/

/-- The statement `result[task_name][key] += value`. -/
def addValue (r : Metrics) (key : String) (value : ℚ) : Metrics :=
  r.insert key (getValue r key + value)

/-- The loop `for key, value := range task { result[task_name][key] += value }`. -/
def sumTask (r : Metrics) (task : Metrics) : Metrics :=
  task.foldl addValue r

/-- The loop `for key, value := range result[task_name]
{ result[task_name][key] = value / lenght }`. -/
def divideAll (r : Metrics) (lenght : ℚ) : Metrics :=
  r.foldl (fun acc key value => acc.insert key (value / lenght)) r

/-- The body of the first loop of `avgMetrics` for one task group: the value that
`result[task_name]` holds when the body ends. -/
def avgGroup (list : List Metrics) : Metrics :=
  let lenght : ℚ := (list.length : ℚ)
  let sums := list.foldl sumTask ∅
  let avgs := divideAll sums lenght
  avgs.insert "instances" lenght

/-- The first `if` of the second loop of `avgMetrics`, on `result[task_name]`. -/
def addMemPerc (m : Metrics) : Metrics :=
  if "mem_rss_bytes" ∈ m then
    if "mem_limit_bytes" ∈ m then
      if getValue m "mem_limit_bytes" ≠ 0 then
        m.insert "mem_perc" (getValue m "mem_rss_bytes" / getValue m "mem_limit_bytes" * 100)
      else m
    else m
  else m

/-- The second `if` of the second loop of `avgMetrics`, on `result[task_name]`. -/
def addDiskPerc (m : Metrics) : Metrics :=
  if "disk_used_bytes" ∈ m then
    if "disk_limit_bytes" ∈ m then
      if getValue m "disk_limit_bytes" ≠ 0 then
        m.insert "disk_perc" (getValue m "disk_used_bytes" / getValue m "disk_limit_bytes" * 100)
      else m
    else m
  else m

/-- The body of the second loop of `avgMetrics`. -/
def addPerc (m : Metrics) : Metrics :=
  addDiskPerc (addMemPerc m)

/-- The first loop of `avgMetrics`. -/
def avgLoop (data : TasksMap) : AvgMap :=
  data.foldl (fun result task_name list => result.insert task_name (avgGroup list)) ∅

/-- One step of the second loop of `avgMetrics`: `result[task_name]` is read
from the map, the loop variable only carries the key. -/
def percStep (result : AvgMap) (task_name : String) : AvgMap :=
  match result.lookup task_name with
  | some m => result.insert task_name (addPerc m)
  | none => result

/-- The second loop of `avgMetrics`. -/
def percLoop (result : AvgMap) : AvgMap :=
  result.foldl (fun acc task_name _ => percStep acc task_name) result

/-- The function `avgMetrics`. -/
def avgMetrics (data : TasksMap) : AvgMap :=
  percLoop (avgLoop data)

/-! ## The task-name pattern -/

/-- The regular-expression class `\s` of Go (RE2 syntax): `[\t\n\f\r ]`.  The
class `\S` of the pattern is its complement. -/
def isWhitespace (c : Char) : Bool :=
  c == '\t' || c == '\n' || c == '\x0c' || c == '\r' || c == ' '

/-- The character class `[0-9A-Fa-f-]`. -/
def isHexOrDash (c : Char) : Bool :=
  ('0' ≤ c && c ≤ '9') || ('A' ≤ c && c ≤ 'F') || ('a' ≤ c && c ≤ 'f') || c == '-'

/-- The repetition `[0-9A-Fa-f-]{n}` at the head of the input. -/
def matchRep : Nat → List Char → Bool
  | 0, _ => true
  | _ + 1, [] => false
  | n + 1, c :: cs => isHexOrDash c && matchRep n cs

/-- The pattern after its first `\S`: the rest of the greedy loop `\S+`, then
`\.[0-9A-Fa-f-]{36}`.  The loop prefers to take one more character; the dot is
tried where that leads to no match.  The result is the number of characters the
loop takes here. -/
def matchLoop : List Char → Option Nat
  | [] => none
  | c :: cs =>
    match (if isWhitespace c then none else matchLoop cs) with
    | some n => some (n + 1)
    | none => if c == '.' && matchRep 36 cs then some 0 else none

/-- The pattern `(\S+)\.[0-9A-Fa-f-]{36}` at the head of the input: the length
of capture group 1. -/
def matchHere : List Char → Option Nat
  | [] => none
  | c :: cs => if isWhitespace c then none else (matchLoop cs).map (· + 1)

/-- The search of `FindStringSubmatch`: the match at the leftmost position where
there is one; the result is capture group 1 (`matches[1]`). -/
def findSubmatch : List Char → Option (List Char)
  | [] => none
  | c :: cs =>
    match matchHere (c :: cs) with
    | some n => some ((c :: cs).take n)
    | none => findSubmatch cs

/-- The value `matches[1]` of `r.FindStringSubmatch(task.ExecutorId)`, `none` when
`matches` is `nil`. -/
def extractName (executorId : String) : Option String :=
  (findSubmatch executorId.data).map String.mk

/-! ## Task records -/

/-- A value of type `interface{}` as `json.Unmarshal` stores it: `nil` for a
missing or `null` field, else a `bool`, `float64`, `string`, `[]interface{}` or
`map[string]interface{}`. -/
inductive JsonValue where
  | null
  | bool (b : Bool)
  | number (x : ℚ)
  | string (s : String)
  | array (xs : List JsonValue)
  | object (kvs : List (String × JsonValue))

/-- The struct `Task.Statistics`. -/
structure Statistics where
  MemUnevictableBytes : JsonValue := JsonValue.null
  MemTotalMemswBytes : JsonValue := JsonValue.null
  MemCriticalPressureCounter : JsonValue := JsonValue.null
  MemCacheBytes : JsonValue := JsonValue.null
  MemAnonBytes : JsonValue := JsonValue.null
  DiskUsedBytes : JsonValue := JsonValue.null
  DiskLimitBytes : JsonValue := JsonValue.null
  CpusUserTimeSecs : JsonValue := JsonValue.null
  CpusSystemTimeSecs : JsonValue := JsonValue.null
  CpusLimit : JsonValue := JsonValue.null
  MemFileBytes : JsonValue := JsonValue.null
  MemLimitBytes : JsonValue := JsonValue.null
  MemLowPressureCounter : JsonValue := JsonValue.null
  MemMappedFileBytes : JsonValue := JsonValue.null
  MemMediumPressureCounter : JsonValue := JsonValue.null
  MemRssBytes : JsonValue := JsonValue.null
  MemSwapBytes : JsonValue := JsonValue.null
  MemTotalBytes : JsonValue := JsonValue.null

/-- The struct `Task`. -/
structure Task where
  Statistics : Statistics := {}
  ExecutorId : String

/-! ## flattenData -/

/-- The `if` statements of `flattenData` in source order: the key each one
writes and the field it reads. -/
def fieldTable : List (String × (Statistics → JsonValue)) :=
  [ ("mem_unevictable_bytes", Statistics.MemUnevictableBytes),
    ("mem_total_memsw_bytes", Statistics.MemTotalMemswBytes),
    ("mem_critical_pressure_counter", Statistics.MemCriticalPressureCounter),
    ("mem_cache_bytes", Statistics.MemCacheBytes),
    ("mem_anon_bytes", Statistics.MemAnonBytes),
    ("disk_used_bytes", Statistics.DiskUsedBytes),
    ("disk_limit_bytes", Statistics.DiskLimitBytes),
    ("cpus_user_time_secs", Statistics.CpusUserTimeSecs),
    ("cpus_system_time_secs", Statistics.CpusSystemTimeSecs),
    ("cpus_limit", Statistics.CpusLimit),
    ("mem_file_bytes", Statistics.MemFileBytes),
    ("mem_limit_bytes", Statistics.MemLimitBytes),
    ("mem_low_pressure_counter", Statistics.MemLowPressureCounter),
    ("mem_mapped_file_bytes", Statistics.MemMappedFileBytes),
    ("mem_medium_pressure_counter", Statistics.MemMediumPressureCounter),
    ("mem_rss_bytes", Statistics.MemRssBytes),
    ("mem_swap_bytes", Statistics.MemSwapBytes),
    ("mem_total_bytes", Statistics.MemTotalBytes) ]

/-- The metric names `flattenData` can write into a per-instance map. -/
def recognizedNames : List String :=
  fieldTable.map Prod.fst

/-- One statement `if field != nil { a[key] = field.(float64) }`; the type
assertion panics (`none`) on a value that is not a `float64`. -/
def setField (a : Metrics) (key : String) (field : JsonValue) : Option Metrics :=
  match field with
  | JsonValue.null => some a
  | JsonValue.number x => some (a.insert key x)
  | _ => none

/-- The keys of an averaged map other than the two derived percentages. -/
def nonPercKeys (out : Metrics) : List String :=
  out.keys.filter (fun k => decide (k ≠ "mem_perc" ∧ k ≠ "disk_perc"))

/-- The per-instance map `a` that `flattenData` builds for a matching record. -/
def buildMap (s : Statistics) : Option Metrics :=
  fieldTable.foldlM (fun a e => setField a e.1 (e.2 s)) ∅

/-- The body of the loop of `flattenData`. -/
def flattenStep (tasks_map : TasksMap) (task : Task) : Option TasksMap :=
  match extractName task.ExecutorId with
  | some name =>
    match buildMap task.Statistics with
    | some a => some (tasks_map.insert name ((tasks_map.lookup name).getD [] ++ [a]))
    | none => none
  | none => some tasks_map

/-- The function `flattenData`; `none` when a type assertion panics. -/
def flattenData (tasks : List Task) : Option TasksMap :=
  tasks.foldlM flattenStep ∅

/-! ## genLineProto -/

/-- The verb `%.3f` of `fmt.Sprintf` on an exact value: sign, integer part, a
point and three fractional digits, rounded to nearest with ties to even. -/
def formatFixed3 (value : ℚ) : String :=
  let a : ℚ := if value < 0 then -value else value
  let n : Nat := (a * 1000).num.toNat
  let d : Nat := (a * 1000).den
  let fl : Nat := n / d
  let r : Nat := n % d
  let m : Nat := if 2 * r < d then fl else if d < 2 * r then fl + 1
    else if fl % 2 = 0 then fl else fl + 1
  (if value < 0 then "-" else "") ++ Nat.repr (m / 1000) ++ "." ++
    String.mk [Nat.digitChar (m / 100 % 10), Nat.digitChar (m / 10 % 10), Nat.digitChar (m % 10)]

/-- The inner loop of `genLineProto`: the list of `key=value` fields of a group. -/
def fieldList (value : Metrics) : List String :=
  value.foldl (fun list key value => list ++ [key ++ "=" ++ formatFixed3 value]) []

/-- The function `genLineProto`. -/
def genLineProto (data : AvgMap) : String :=
  let output := data.foldl
    (fun output task_name value =>
      let line := "mesos_tasks,task_name=" ++ task_name ++ " " ++
        String.intercalate "," (fieldList value)
      output ++ [line])
    []
  String.intercalate "\n" output

/-! ## Quantities the claims speak of -/

/-- The number of records whose executor id extracts to the task name `t`. -/
def matchCount (tasks : List Task) (t : String) : Nat :=
  tasks.countP (fun task => extractName task.ExecutorId = some t)

/-- The number of records whose executor id matches the pattern. -/
def matchingCount (tasks : List Task) : Nat :=
  tasks.countP (fun task => (extractName task.ExecutorId).isSome)

/-- The number of per-instance maps stored in an accumulator, over all groups. -/
def totalInstances (m : TasksMap) : Nat :=
  (m.entries.map (fun e => e.2.length)).sum

/-- The field is `null` or a number. -/
def isNullOrNumber : JsonValue → Bool
  | JsonValue.null => true
  | JsonValue.number _ => true
  | _ => false

/-- Every member map of every group uses recognized metric names only. -/
def onlyRecognized (data : TasksMap) : Bool :=
  data.entries.all (fun e => e.2.all (fun m => m.keys.all (fun k => decide (k ∈ recognizedNames))))

/-- The match as the specification words it, on the characters `s` of an executor
id: a match starts at index `i` and its name ends before index `j` when `s[i..j)`
is non-empty and free of whitespace, `s[j]` is a dot, and the 36 characters
`s[j+1..j+37)` exist and are hexadecimal digits or hyphens. -/
def specMatchAt (s : List Char) (i j : Nat) : Prop :=
  i < j ∧ (∀ c ∈ (s.drop i).take (j - i), isWhitespace c = false) ∧
  (s.drop j).head? = some '.' ∧ 36 ≤ (s.drop (j + 1)).length ∧
  ∀ c ∈ (s.drop (j + 1)).take 36, isHexOrDash c = true

/-- The same match seen from its start: the first `n` characters of `cs` are free
of whitespace, the next one is a dot, and `[0-9A-Fa-f-]{36}` follows. -/
def loopSpec (cs : List Char) (n : Nat) : Prop :=
  (∀ c ∈ cs.take n, isWhitespace c = false) ∧ (cs.drop n).head? = some '.' ∧
  matchRep 36 (cs.drop (n + 1)) = true

/-- The text ends in a character, and that character is not a newline. -/
def endsWithoutNewline (s : String) : Prop :=
  ∃ c, s.data.getLast? = some c ∧ c ≠ '\n'

/-! ## Example inputs -/

/-- Two matching records of task `a`, a record that matches no pattern, and a
matching record of task `b`. -/
def exampleTasks : List Task :=
  [ { ExecutorId := "a.1a2b3c4d-0000-0000-0000-000000000000",
      Statistics := { MemRssBytes := JsonValue.number 50, MemLimitBytes := JsonValue.number 100 } },
    { ExecutorId := "noiddashhere",
      Statistics := { CpusLimit := JsonValue.number 1 } },
    { ExecutorId := "a.1a2b3c4d-0000-0000-0000-000000000001",
      Statistics := { MemRssBytes := JsonValue.number 50, MemLimitBytes := JsonValue.number 300 } },
    { ExecutorId := "b.1a2b3c4d-0000-0000-0000-000000000002",
      Statistics := { DiskUsedBytes := JsonValue.number 50, DiskLimitBytes := JsonValue.number 0 } } ]

/-- Two instances of a task with `mem_rss_bytes` 100 and 300, and two instances of
another task of which only the first has `cpus_limit`. -/
def exampleGroups : TasksMap :=
  AList.insert "a" [AList.singleton "mem_rss_bytes" 100, AList.singleton "mem_rss_bytes" 300]
    (AList.insert "b" [AList.singleton "cpus_limit" 10, ∅] ∅)

/-- One instance with `mem_rss_bytes = 50`, `mem_limit_bytes = 200`,
`disk_used_bytes = 50` and `disk_limit_bytes = 0`. -/
def examplePerc : TasksMap :=
  AList.singleton "c"
    [AList.insert "mem_rss_bytes" 50 (AList.insert "mem_limit_bytes" 200
      (AList.insert "disk_used_bytes" 50 (AList.singleton "disk_limit_bytes" 0)))]

/-- A matching record of task `a` with two of its fields set. -/
def exampleRecord : Task :=
  { ExecutorId := "a.1a2b3c4d-0000-0000-0000-000000000000",
    Statistics := { MemRssBytes := JsonValue.number 50, MemLimitBytes := JsonValue.number 100 } }

/-- A matching record of task `a` with every field set. -/
def exampleFull : Task :=
  { ExecutorId := "a.1a2b3c4d-0000-0000-0000-000000000000",
    Statistics :=
      { MemUnevictableBytes := JsonValue.number 1,
        MemTotalMemswBytes := JsonValue.number 2,
        MemCriticalPressureCounter := JsonValue.number 3,
        MemCacheBytes := JsonValue.number 4,
        MemAnonBytes := JsonValue.number 5,
        DiskUsedBytes := JsonValue.number 6,
        DiskLimitBytes := JsonValue.number 7,
        CpusUserTimeSecs := JsonValue.number 8,
        CpusSystemTimeSecs := JsonValue.number 9,
        CpusLimit := JsonValue.number 10,
        MemFileBytes := JsonValue.number 11,
        MemLimitBytes := JsonValue.number 12,
        MemLowPressureCounter := JsonValue.number 13,
        MemMappedFileBytes := JsonValue.number 14,
        MemMediumPressureCounter := JsonValue.number 15,
        MemRssBytes := JsonValue.number 16,
        MemSwapBytes := JsonValue.number 17,
        MemTotalBytes := JsonValue.number 18 } }

/-- A record with a matching executor id whose `mem_rss_bytes` is a JSON string. -/
def exampleBadTasks : List Task :=
  [ { ExecutorId := "web.1a2b3c4d-0000-0000-0000-000000000000",
      Statistics := { MemRssBytes := JsonValue.string "n/a" } } ]

/-- The groups of `exampleGroups` with the members of `a` in the other order. -/
def exampleGroupsSwapped : TasksMap :=
  AList.insert "b" [AList.singleton "cpus_limit" 10, ∅]
    (AList.insert "a" [AList.singleton "mem_rss_bytes" 300, AList.singleton "mem_rss_bytes" 100] ∅)

/-- A task with an empty list of instances, which `flattenData` never builds. -/
def exampleEmptyGroup : TasksMap :=
  AList.singleton "idle" []

/-- Two instances of a task: 50 of 100 bytes and 50 of 300 bytes of memory. -/
def exampleRatio : TasksMap :=
  AList.singleton "a"
    [AList.insert "mem_rss_bytes" 50 (AList.singleton "mem_limit_bytes" 100),
     AList.insert "mem_rss_bytes" 50 (AList.singleton "mem_limit_bytes" 300)]

/-- An executor id in which a match starts at index 2 and the name can end in
front of either of two runs of 36 characters. -/
def exampleTwoUuids : String :=
  "a b.c.1a2b3c4d-0000-0000-0000-000000000000.1a2b3c4d-0000-0000-0000-000000000001 x"

/-- Two averaged groups. -/
def exampleAveraged : AvgMap :=
  AList.insert "web" (AList.insert "instances" 2 (AList.singleton "cpus_limit" (1 / 2)))
    (AList.singleton "db" (AList.singleton "instances" 1))

/-! ## Lemmas on Go maps -/

section MapLemmas

variable {V W : Type}

/-- A loop that stores `f key value` under every key it visits. -/
theorem lookup_foldl_insert (f : String → W → V) (l : List (Sigma fun _ : String => W))
    (hl : l.NodupKeys) (init : AList fun _ : String => V) (k : String) :
    AList.lookup k (l.foldl (fun acc e => acc.insert e.1 (f e.1 e.2)) init) =
      match l.dlookup k with
      | some w => some (f k w)
      | none => AList.lookup k init := by
  induction l generalizing init with
  | nil => simp
  | cons e l ih =>
    obtain ⟨a, w⟩ := e
    rw [List.nodupKeys_cons] at hl
    rw [List.foldl_cons, ih hl.2]
    by_cases hk : k = a
    · subst hk
      have hnone : l.dlookup k = none := by
        rw [List.dlookup_eq_none]
        exact hl.1
      simp [hnone, List.dlookup_cons_eq, AList.lookup_insert]
    · have hcons : List.dlookup k (Sigma.mk a w :: l) = List.dlookup k l :=
        List.dlookup_cons_ne l (Sigma.mk a w) hk
      simp [hcons, AList.lookup_insert_ne hk]

end MapLemmas

/-! ## Lemmas on avgMetrics -/

theorem getValue_of_lookup {m : Metrics} {k : String} {v : ℚ} (h : m.lookup k = some v) :
    getValue m k = v := by
  simp [getValue, h]

theorem getValue_of_not_mem {m : Metrics} {k : String} (h : k ∉ m) : getValue m k = 0 := by
  simp [getValue, AList.lookup_eq_none.2 h]

theorem lookup_eq_some_getValue {m : Metrics} {k : String} (h : k ∈ m) :
    m.lookup k = some (getValue m k) := by
  obtain ⟨v, hv⟩ := Option.isSome_iff_exists.1 (AList.lookup_isSome.2 h)
  rw [hv, getValue_of_lookup hv]

theorem lookup_foldl_addValue (l : List (Sigma fun _ : String => ℚ)) (hl : l.NodupKeys)
    (init : Metrics) (k : String) :
    AList.lookup k (l.foldl (fun r e => addValue r e.1 e.2) init) =
      match l.dlookup k with
      | some v => some (getValue init k + v)
      | none => AList.lookup k init := by
  induction l generalizing init with
  | nil => simp
  | cons e l ih =>
    obtain ⟨a, w⟩ := e
    rw [List.nodupKeys_cons] at hl
    rw [List.foldl_cons, ih hl.2]
    by_cases hk : k = a
    · subst hk
      have hnone : l.dlookup k = none := by
        rw [List.dlookup_eq_none]
        exact hl.1
      simp [hnone, List.dlookup_cons_eq, addValue, AList.lookup_insert]
    · have hcons : List.dlookup k (Sigma.mk a w :: l) = List.dlookup k l :=
        List.dlookup_cons_ne l (Sigma.mk a w) hk
      simp [hcons, addValue, getValue, AList.lookup_insert_ne hk]

theorem lookup_sumTask (r task : Metrics) (k : String) :
    (sumTask r task).lookup k =
      match task.lookup k with
      | some v => some (getValue r k + v)
      | none => r.lookup k :=
  lookup_foldl_addValue task.entries task.nodupKeys r k

theorem mem_sumTask (r task : Metrics) (k : String) :
    k ∈ sumTask r task ↔ k ∈ r ∨ k ∈ task := by
  rw [← AList.lookup_isSome, lookup_sumTask, ← AList.lookup_isSome, ← AList.lookup_isSome]
  cases h : task.lookup k <;> simp

theorem getValue_sumTask (r task : Metrics) (k : String) :
    getValue (sumTask r task) k = getValue r k + getValue task k := by
  unfold getValue
  rw [lookup_sumTask]
  cases h : task.lookup k <;> simp [getValue]

theorem mem_foldl_sumTask (list : List Metrics) (r : Metrics) (k : String) :
    k ∈ list.foldl sumTask r ↔ k ∈ r ∨ ∃ m ∈ list, k ∈ m := by
  induction list generalizing r with
  | nil => simp
  | cons m list ih =>
    rw [List.foldl_cons, ih, mem_sumTask]
    simp only [List.mem_cons, exists_eq_or_imp]
    tauto

theorem getValue_foldl_sumTask (list : List Metrics) (r : Metrics) (k : String) :
    getValue (list.foldl sumTask r) k =
      getValue r k + (list.filterMap (fun m => m.lookup k)).sum := by
  induction list generalizing r with
  | nil => simp
  | cons m list ih =>
    rw [List.foldl_cons, ih, getValue_sumTask]
    cases h : m.lookup k with
    | none => simp [List.filterMap_cons, h, getValue]
    | some v => simp [List.filterMap_cons, h, getValue, add_assoc]

theorem lookup_divideAll (r : Metrics) (lenght : ℚ) (k : String) :
    (divideAll r lenght).lookup k = (r.lookup k).map (fun v => v / lenght) := by
  have h := lookup_foldl_insert (fun _ v => v / lenght) r.entries r.nodupKeys r k
  have hd : List.dlookup k r.entries = r.lookup k := rfl
  unfold divideAll AList.foldl
  refine Eq.trans h ?_
  rw [hd]
  cases hk : r.lookup k <;> simp

/-- The sum of the values of `k` over the members of `list` that contain `k`. -/
theorem lookup_avgGroup (list : List Metrics) (k : String) (hk : k ≠ "instances") :
    (avgGroup list).lookup k =
      if ∃ m ∈ list, k ∈ m then
        some ((list.filterMap (fun m => m.lookup k)).sum / (list.length : ℚ))
      else none := by
  unfold avgGroup
  simp only
  rw [AList.lookup_insert_ne hk, lookup_divideAll]
  by_cases h : ∃ m ∈ list, k ∈ m
  · have hmem : k ∈ list.foldl sumTask ∅ := (mem_foldl_sumTask list ∅ k).2 (Or.inr h)
    rw [if_pos h, lookup_eq_some_getValue hmem, getValue_foldl_sumTask]
    simp [getValue]
  · have hmem : k ∉ list.foldl sumTask ∅ := by
      rw [mem_foldl_sumTask]
      simp only [AList.not_mem_empty, false_or]
      exact h
    rw [if_neg h, AList.lookup_eq_none.2 hmem]
    rfl

theorem lookup_avgGroup_instances (list : List Metrics) :
    (avgGroup list).lookup "instances" = some (list.length : ℚ) := by
  unfold avgGroup
  simp only
  rw [AList.lookup_insert]

theorem lookup_addMemPerc (m : Metrics) (k : String) (hk : k ≠ "mem_perc") :
    (addMemPerc m).lookup k = m.lookup k := by
  unfold addMemPerc
  split_ifs <;> first | rfl | exact AList.lookup_insert_ne hk

theorem lookup_addDiskPerc (m : Metrics) (k : String) (hk : k ≠ "disk_perc") :
    (addDiskPerc m).lookup k = m.lookup k := by
  unfold addDiskPerc
  split_ifs <;> first | rfl | exact AList.lookup_insert_ne hk

theorem lookup_addPerc (m : Metrics) (k : String) (h1 : k ≠ "mem_perc")
    (h2 : k ≠ "disk_perc") : (addPerc m).lookup k = m.lookup k := by
  unfold addPerc
  rw [lookup_addDiskPerc _ _ h2, lookup_addMemPerc _ _ h1]

theorem lookup_avgLoop (data : TasksMap) (t : String) :
    (avgLoop data).lookup t = (data.lookup t).map avgGroup := by
  have h := lookup_foldl_insert (fun _ l => avgGroup l) data.entries data.nodupKeys
    (∅ : AvgMap) t
  have hd : List.dlookup t data.entries = data.lookup t := rfl
  unfold avgLoop AList.foldl
  refine Eq.trans h ?_
  rw [hd]
  cases ht : data.lookup t <;> simp

/-- The second loop rewrites the entry of every key it visits, reading the entry
from the map being rewritten. -/
theorem lookup_foldl_percStep (l : List (Sigma fun _ : String => Metrics))
    (hl : l.NodupKeys) (init : AvgMap) (k : String)
    (hinit : ∀ e ∈ l, AList.lookup e.1 init = some e.2) :
    AList.lookup k (l.foldl (fun acc e => percStep acc e.1) init) =
      match l.dlookup k with
      | some v => some (addPerc v)
      | none => AList.lookup k init := by
  induction l generalizing init with
  | nil => simp
  | cons e l ih =>
    obtain ⟨a, w⟩ := e
    rw [List.nodupKeys_cons] at hl
    have ha : AList.lookup a init = some w := hinit ⟨a, w⟩ (List.mem_cons_self _ _)
    have hstep : percStep init a = init.insert a (addPerc w) := by
      unfold percStep
      rw [ha]
    have hrest : ∀ e ∈ l, AList.lookup e.1 (init.insert a (addPerc w)) = some e.2 := by
      intro e he
      have hne : e.1 ≠ a := by
        intro h
        apply hl.1
        obtain ⟨a1, w1⟩ := e
        rw [← h]
        exact List.mem_keys.2 ⟨w1, he⟩
      rw [AList.lookup_insert_ne hne]
      exact hinit e (List.mem_cons_of_mem _ he)
    rw [List.foldl_cons, hstep, ih hl.2 _ hrest]
    by_cases hk : k = a
    · subst hk
      have hnone : l.dlookup k = none := by
        rw [List.dlookup_eq_none]
        exact hl.1
      simp [hnone, List.dlookup_cons_eq, AList.lookup_insert]
    · have hcons : List.dlookup k (Sigma.mk a w :: l) = List.dlookup k l :=
        List.dlookup_cons_ne l (Sigma.mk a w) hk
      simp [hcons, AList.lookup_insert_ne hk]

theorem lookup_percLoop (result : AvgMap) (t : String) :
    (percLoop result).lookup t = (result.lookup t).map addPerc := by
  have h := lookup_foldl_percStep result.entries result.nodupKeys result t
    (fun e he => AList.mem_lookup_iff.2 he)
  have hd : List.dlookup t result.entries = result.lookup t := rfl
  unfold percLoop AList.foldl
  refine Eq.trans h ?_
  rw [hd]
  cases ht : result.lookup t <;> simp

/-- Every group of the output is computed from the list of that group alone. -/
theorem lookup_avgMetrics (data : TasksMap) (t : String) :
    (avgMetrics data).lookup t = (data.lookup t).map (fun list => addPerc (avgGroup list)) := by
  unfold avgMetrics
  rw [lookup_percLoop, lookup_avgLoop]
  cases data.lookup t <;> rfl

theorem recognized_ne_derived {k : String} (hk : k ∈ recognizedNames) :
    k ≠ "instances" ∧ k ≠ "mem_perc" ∧ k ≠ "disk_perc" := by
  refine ⟨?_, ?_, ?_⟩ <;> (rintro rfl; revert hk; decide)

theorem sum_filterMap_lookup (list : List Metrics) (k : String) :
    (list.filterMap (fun m => m.lookup k)).sum = (list.map (fun m => getValue m k)).sum := by
  induction list with
  | nil => rfl
  | cons m list ih =>
    cases h : m.lookup k with
    | none => simp [List.filterMap_cons, h, getValue, ih]
    | some v => simp [List.filterMap_cons, h, getValue, ih]

theorem mem_addPerc_iff (m : Metrics) (k : String) (h1 : k ≠ "mem_perc")
    (h2 : k ≠ "disk_perc") : k ∈ addPerc m ↔ k ∈ m := by
  rw [← AList.lookup_isSome, ← AList.lookup_isSome, lookup_addPerc m k h1 h2]

theorem getValue_addPerc (m : Metrics) (k : String) (h1 : k ≠ "mem_perc")
    (h2 : k ≠ "disk_perc") : getValue (addPerc m) k = getValue m k := by
  unfold getValue
  rw [lookup_addPerc m k h1 h2]

theorem mem_addMemPerc_iff (m : Metrics) (h : "mem_perc" ∉ m) :
    "mem_perc" ∈ addMemPerc m ↔
      "mem_rss_bytes" ∈ m ∧ "mem_limit_bytes" ∈ m ∧ getValue m "mem_limit_bytes" ≠ 0 := by
  unfold addMemPerc
  split_ifs with h1 h2 h3
  · simp [AList.mem_insert, h1, h2, h3]
  · simp [h, h3]
  · simp [h, h2]
  · simp [h, h1]

theorem mem_addDiskPerc_iff (m : Metrics) (h : "disk_perc" ∉ m) :
    "disk_perc" ∈ addDiskPerc m ↔
      "disk_used_bytes" ∈ m ∧ "disk_limit_bytes" ∈ m ∧ getValue m "disk_limit_bytes" ≠ 0 := by
  unfold addDiskPerc
  split_ifs with h1 h2 h3
  · simp [AList.mem_insert, h1, h2, h3]
  · simp [h, h3]
  · simp [h, h2]
  · simp [h, h1]

theorem lookup_addMemPerc_self (m : Metrics) (h : "mem_perc" ∉ m)
    (hp : "mem_perc" ∈ addMemPerc m) :
    (addMemPerc m).lookup "mem_perc" =
      some (getValue m "mem_rss_bytes" / getValue m "mem_limit_bytes" * 100) := by
  obtain ⟨h1, h2, h3⟩ := (mem_addMemPerc_iff m h).1 hp
  unfold addMemPerc
  rw [if_pos h1, if_pos h2, if_pos h3, AList.lookup_insert]

theorem lookup_addDiskPerc_self (m : Metrics) (h : "disk_perc" ∉ m)
    (hp : "disk_perc" ∈ addDiskPerc m) :
    (addDiskPerc m).lookup "disk_perc" =
      some (getValue m "disk_used_bytes" / getValue m "disk_limit_bytes" * 100) := by
  obtain ⟨h1, h2, h3⟩ := (mem_addDiskPerc_iff m h).1 hp
  unfold addDiskPerc
  rw [if_pos h1, if_pos h2, if_pos h3, AList.lookup_insert]

theorem mem_avgGroup_iff (list : List Metrics) (k : String) :
    k ∈ avgGroup list ↔ k = "instances" ∨ ∃ m ∈ list, k ∈ m := by
  by_cases hk : k = "instances"
  · subst hk
    rw [← AList.lookup_isSome, lookup_avgGroup_instances]
    simp
  · rw [← AList.lookup_isSome, lookup_avgGroup list k hk]
    by_cases h : ∃ m ∈ list, k ∈ m
    · rw [if_pos h]
      simp only [Option.isSome_some, true_iff]
      exact Or.inr h
    · rw [if_neg h]
      simp only [Option.isSome_none, Bool.false_eq_true, false_iff]
      intro hor
      rcases hor with h1 | h1
      · exact hk h1
      · exact h h1

theorem onlyRecognized_iff (data : TasksMap) :
    onlyRecognized data = true ↔
      ∀ t list, data.lookup t = some list → ∀ m ∈ list, ∀ k, k ∈ m → k ∈ recognizedNames := by
  unfold onlyRecognized
  simp only [List.all_eq_true, decide_eq_true_eq]
  constructor
  · intro h t list ht m hm k hk
    exact h ⟨t, list⟩ (AList.mem_lookup_iff.1 ht) m hm k (AList.mem_keys.1 hk)
  · intro h e he m hm k hk
    obtain ⟨t, list⟩ := e
    exact h t list (AList.mem_lookup_iff.2 he) m hm k (AList.mem_keys.2 hk)

/-- A group built from member maps with recognized names holds no percentage
before the second loop runs. -/
theorem not_mem_avgGroup_of_recognized (list : List Metrics)
    (hrec : ∀ m ∈ list, ∀ k, k ∈ m → k ∈ recognizedNames) (k : String)
    (hk : k ∉ recognizedNames) (hi : k ≠ "instances") : k ∉ avgGroup list := by
  rw [mem_avgGroup_iff]
  rintro (h | ⟨m, hm, hkm⟩)
  · exact hi h
  · exact hk (hrec m hm k hkm)

theorem avgMetrics_lookup_some {data : TasksMap} {t : String} {out : Metrics}
    (ht : (avgMetrics data).lookup t = some out) :
    ∃ list, data.lookup t = some list ∧ out = addPerc (avgGroup list) := by
  rw [lookup_avgMetrics] at ht
  cases hl : data.lookup t with
  | none => simp [hl] at ht
  | some list =>
    simp only [hl, Option.map_some', Option.some.injEq] at ht
    exact ⟨list, rfl, ht.symm⟩

theorem no_perc_in_avgGroup {data : TasksMap} (hrec : onlyRecognized data = true)
    {t : String} {list : List Metrics} (hl : data.lookup t = some list) :
    "mem_perc" ∉ avgGroup list ∧ "disk_perc" ∉ avgGroup list := by
  have hmembers := (onlyRecognized_iff data).1 hrec t list hl
  exact ⟨not_mem_avgGroup_of_recognized list hmembers _ (by decide) (by decide),
    not_mem_avgGroup_of_recognized list hmembers _ (by decide) (by decide)⟩

theorem mem_addMemPerc_of_ne (g : Metrics) (k : String) (hk : k ≠ "mem_perc") :
    k ∈ addMemPerc g ↔ k ∈ g := by
  rw [← AList.lookup_isSome, lookup_addMemPerc _ _ hk, AList.lookup_isSome]

theorem getValue_addMemPerc (g : Metrics) (k : String) (hk : k ≠ "mem_perc") :
    getValue (addMemPerc g) k = getValue g k := by
  unfold getValue
  rw [lookup_addMemPerc _ _ hk]

/-- When the two percentages are present after the second loop, in terms of the
map the first loop built. -/
theorem present_after_addPerc (g : Metrics) (hm0 : "mem_perc" ∉ g) (hd0 : "disk_perc" ∉ g) :
    ("mem_perc" ∈ addPerc g ↔
      "mem_rss_bytes" ∈ g ∧ "mem_limit_bytes" ∈ g ∧ getValue g "mem_limit_bytes" ≠ 0) ∧
    ("disk_perc" ∈ addPerc g ↔
      "disk_used_bytes" ∈ g ∧ "disk_limit_bytes" ∈ g ∧ getValue g "disk_limit_bytes" ≠ 0) := by
  have hd1 : "disk_perc" ∉ addMemPerc g := by
    rw [mem_addMemPerc_of_ne _ _ (by decide)]
    exact hd0
  constructor
  · have e1 : "mem_perc" ∈ addPerc g ↔ "mem_perc" ∈ addMemPerc g := by
      unfold addPerc
      rw [← AList.lookup_isSome, lookup_addDiskPerc _ _ (by decide), AList.lookup_isSome]
    rw [e1, mem_addMemPerc_iff _ hm0]
  · unfold addPerc
    rw [mem_addDiskPerc_iff _ hd1, mem_addMemPerc_of_ne _ _ (by decide),
      mem_addMemPerc_of_ne _ _ (by decide), getValue_addMemPerc _ _ (by decide)]

theorem lookup_addPerc_mem (g : Metrics) (hm0 : "mem_perc" ∉ g) (hp : "mem_perc" ∈ addPerc g) :
    (addPerc g).lookup "mem_perc" =
      some (getValue g "mem_rss_bytes" / getValue g "mem_limit_bytes" * 100) := by
  have hp1 : "mem_perc" ∈ addMemPerc g := by
    unfold addPerc at hp
    rw [← AList.lookup_isSome, lookup_addDiskPerc _ _ (by decide), AList.lookup_isSome] at hp
    exact hp
  unfold addPerc
  rw [lookup_addDiskPerc _ _ (by decide), lookup_addMemPerc_self g hm0 hp1]

theorem lookup_addPerc_disk (g : Metrics) (hd0 : "disk_perc" ∉ g)
    (hp : "disk_perc" ∈ addPerc g) :
    (addPerc g).lookup "disk_perc" =
      some (getValue g "disk_used_bytes" / getValue g "disk_limit_bytes" * 100) := by
  have hd1 : "disk_perc" ∉ addMemPerc g := by
    rw [mem_addMemPerc_of_ne _ _ (by decide)]
    exact hd0
  unfold addPerc at hp ⊢
  rw [lookup_addDiskPerc_self _ hd1 hp, getValue_addMemPerc _ _ (by decide),
    getValue_addMemPerc _ _ (by decide)]

/-! ## Lemmas on the task-name pattern -/

theorem matchRep_append (u rest : List Char) (hu : ∀ c ∈ u, isHexOrDash c = true) :
    matchRep u.length (u ++ rest) = true := by
  induction u with
  | nil => rfl
  | cons c u ih =>
    have hc : isHexOrDash c = true := hu c (List.mem_cons_self _ _)
    have hrest : ∀ d ∈ u, isHexOrDash d = true := fun d hd => hu d (List.mem_cons_of_mem _ hd)
    simp [matchRep, hc, ih hrest]

/-- The loop finds nothing in a text without a dot. -/
theorem matchLoop_no_dot (cs : List Char) (h : '.' ∉ cs) : matchLoop cs = none := by
  induction cs with
  | nil => rfl
  | cons c cs ih =>
    have hc : c ≠ '.' := fun e => h (e ▸ List.mem_cons_self _ _)
    have hcs : '.' ∉ cs := fun e => h (List.mem_cons_of_mem _ e)
    have hrec : (if isWhitespace c = true then none else matchLoop cs) = none := by
      rw [ih hcs]
      split <;> rfl
    unfold matchLoop
    rw [hrec]
    simp [hc]

/-- The loop takes the whole of a whitespace-free prefix when the only later dot
is the one in front of the 36 characters. -/
theorem matchLoop_prefix (pre u rest : List Char)
    (hpre : ∀ c ∈ pre, isWhitespace c = false) (hlen : u.length = 36)
    (hu : ∀ c ∈ u, isHexOrDash c = true) (hrest : '.' ∉ rest) :
    matchLoop (pre ++ '.' :: (u ++ rest)) = some pre.length := by
  induction pre with
  | nil =>
    have hnodot : '.' ∉ u ++ rest := by
      intro hmem
      rcases List.mem_append.1 hmem with h1 | h1
      · exact absurd (hu _ h1) (by decide)
      · exact hrest h1
    have hrep : matchRep 36 (u ++ rest) = true := by
      rw [← hlen]
      exact matchRep_append u rest hu
    have hrec : (if isWhitespace '.' = true then none else matchLoop (u ++ rest)) = none := by
      rw [matchLoop_no_dot _ hnodot]
      split <;> rfl
    show matchLoop ('.' :: (u ++ rest)) = some 0
    unfold matchLoop
    rw [hrec]
    simp [hrep]
  | cons c pre ih =>
    have hc : isWhitespace c = false := hpre c (List.mem_cons_self _ _)
    have hrec := ih (fun d hd => hpre d (List.mem_cons_of_mem _ hd))
    show matchLoop (c :: (pre ++ '.' :: (u ++ rest))) = some (pre.length + 1)
    unfold matchLoop
    rw [hrec]
    simp [hc]

theorem findSubmatch_name_uuid (name u rest : List Char) (hne : name ≠ [])
    (hname : ∀ c ∈ name, isWhitespace c = false) (hlen : u.length = 36)
    (hu : ∀ c ∈ u, isHexOrDash c = true) (hrest : '.' ∉ rest) :
    findSubmatch (name ++ '.' :: (u ++ rest)) = some name := by
  cases name with
  | nil => exact absurd rfl hne
  | cons c pre =>
    have hc : isWhitespace c = false := hname c (List.mem_cons_self _ _)
    have hloop := matchLoop_prefix pre u rest
      (fun d hd => hname d (List.mem_cons_of_mem _ hd)) hlen hu hrest
    have hhere : matchHere (c :: (pre ++ '.' :: (u ++ rest))) = some (pre.length + 1) := by
      simp only [matchHere, hloop, hc]
      rfl
    show findSubmatch (c :: (pre ++ '.' :: (u ++ rest))) = some (c :: pre)
    unfold findSubmatch
    rw [hhere]
    simp

/-! ## Lemmas on flattenData -/

theorem flattenStep_of_none {m : TasksMap} {task : Task}
    (h : extractName task.ExecutorId = none) : flattenStep m task = some m := by
  unfold flattenStep
  rw [h]

theorem flattenStep_of_some {m : TasksMap} {task : Task} {name : String}
    (h : extractName task.ExecutorId = some name) :
    flattenStep m task =
      (buildMap task.Statistics).map
        (fun a => m.insert name ((m.lookup name).getD [] ++ [a])) := by
  unfold flattenStep
  rw [h]
  cases buildMap task.Statistics <;> rfl

theorem foldlM_flattenStep_cons (task : Task) (tasks : List Task) (m : TasksMap) :
    (task :: tasks).foldlM flattenStep m =
      (flattenStep m task).bind (fun m1 => tasks.foldlM flattenStep m1) := by
  rw [List.foldlM_cons]
  rfl

/-- What one step of the loop does to the list stored under `t`. -/
theorem length_flattenStep {m m1 : TasksMap} {task : Task} (h : flattenStep m task = some m1)
    (t : String) :
    ((m1.lookup t).getD []).length =
      ((m.lookup t).getD []).length + if extractName task.ExecutorId = some t then 1 else 0 := by
  cases hn : extractName task.ExecutorId with
  | none =>
    rw [flattenStep_of_none hn] at h
    cases h
    simp
  | some name =>
    rw [flattenStep_of_some hn] at h
    cases hb : buildMap task.Statistics with
    | none => simp [hb] at h
    | some a =>
      simp only [hb, Option.map_some', Option.some.injEq] at h
      subst h
      by_cases hname : name = t
      · subst hname
        simp [AList.lookup_insert]
      · have hne : t ≠ name := fun e => hname e.symm
        simp [AList.lookup_insert_ne hne, hname]

theorem nonempty_flattenStep {m m1 : TasksMap} {task : Task} (h : flattenStep m task = some m1)
    (hm : ∀ t list, m.lookup t = some list → list ≠ []) :
    ∀ t list, m1.lookup t = some list → list ≠ [] := by
  cases hn : extractName task.ExecutorId with
  | none =>
    rw [flattenStep_of_none hn] at h
    cases h
    exact hm
  | some name =>
    rw [flattenStep_of_some hn] at h
    cases hb : buildMap task.Statistics with
    | none => simp [hb] at h
    | some a =>
      simp only [hb, Option.map_some', Option.some.injEq] at h
      subst h
      intro t list hl
      by_cases hname : t = name
      · subst hname
        rw [AList.lookup_insert] at hl
        cases hl
        simp
      · rw [AList.lookup_insert_ne hname] at hl
        exact hm t list hl

theorem length_foldlM_flattenStep (tasks : List Task) (init acc : TasksMap)
    (h : tasks.foldlM flattenStep init = some acc) (t : String) :
    ((acc.lookup t).getD []).length = ((init.lookup t).getD []).length + matchCount tasks t := by
  induction tasks generalizing init with
  | nil =>
    simp only [List.foldlM_nil] at h
    cases h
    simp [matchCount]
  | cons task tasks ih =>
    rw [foldlM_flattenStep_cons] at h
    cases hs : flattenStep init task with
    | none => simp [hs] at h
    | some m1 =>
      rw [hs] at h
      rw [ih m1 h, length_flattenStep hs t]
      unfold matchCount
      rw [List.countP_cons]
      by_cases hx : extractName task.ExecutorId = some t
      · simp [hx]
        omega
      · simp [hx]

theorem nonempty_foldlM_flattenStep (tasks : List Task) (init acc : TasksMap)
    (h : tasks.foldlM flattenStep init = some acc)
    (hm : ∀ t list, init.lookup t = some list → list ≠ []) :
    ∀ t list, acc.lookup t = some list → list ≠ [] := by
  induction tasks generalizing init with
  | nil =>
    simp only [List.foldlM_nil] at h
    cases h
    exact hm
  | cons task tasks ih =>
    rw [foldlM_flattenStep_cons] at h
    cases hs : flattenStep init task with
    | none => simp [hs] at h
    | some m1 =>
      rw [hs] at h
      exact ih m1 h (nonempty_flattenStep hs hm)

/-- The group of `t` in the accumulator: as many maps as records extract to `t`,
and no group is empty. -/
theorem lookup_flattenData {tasks : List Task} {acc : TasksMap}
    (h : flattenData tasks = some acc) {t : String} {list : List Metrics}
    (hl : acc.lookup t = some list) : list.length = matchCount tasks t ∧ list ≠ [] := by
  have h1 := length_foldlM_flattenStep tasks ∅ acc h t
  have h2 := nonempty_foldlM_flattenStep tasks ∅ acc h (by simp) t list hl
  rw [hl] at h1
  simp at h1
  exact ⟨h1, h2⟩

theorem lookup_flattenData_of_pos {tasks : List Task} {acc : TasksMap}
    (h : flattenData tasks = some acc) {t : String} (hpos : 0 < matchCount tasks t) :
    ∃ list, acc.lookup t = some list := by
  have h1 := length_foldlM_flattenStep tasks ∅ acc h t
  cases hl : acc.lookup t with
  | some list => exact ⟨list, rfl⟩
  | none =>
    rw [hl] at h1
    simp at h1
    omega

theorem isNullOrNumber_iff (v : JsonValue) :
    isNullOrNumber v = true ↔ v = JsonValue.null ∨ ∃ x, v = JsonValue.number x := by
  cases v <;> simp [isNullOrNumber]

theorem setField_eq_some {a b : Metrics} {key : String} {v : JsonValue}
    (h : setField a key v = some b) : isNullOrNumber v = true := by
  cases v <;> simp_all [setField, isNullOrNumber]

theorem foldlM_setField_cons (s : Statistics) (e : String × (Statistics → JsonValue))
    (tbl : List (String × (Statistics → JsonValue))) (init : Metrics) :
    (e :: tbl).foldlM (fun a e => setField a e.1 (e.2 s)) init =
      (setField init e.1 (e.2 s)).bind
        (fun a1 => tbl.foldlM (fun a e => setField a e.1 (e.2 s)) a1) := by
  rw [List.foldlM_cons]
  rfl

/-- The `if` statements of a table with distinct keys, run on fields that are
`null` or numbers: every number is stored under its key, nothing else changes. -/
theorem foldlM_setField_some (s : Statistics) (tbl : List (String × (Statistics → JsonValue)))
    (hnd : (tbl.map Prod.fst).Nodup) (hwt : ∀ e ∈ tbl, isNullOrNumber (e.2 s) = true)
    (init : Metrics) :
    ∃ a, tbl.foldlM (fun a e => setField a e.1 (e.2 s)) init = some a ∧
      ∀ k x, a.lookup k = some x ↔
        (∃ e ∈ tbl, e.1 = k ∧ e.2 s = JsonValue.number x) ∨
        ((∀ e ∈ tbl, e.1 = k → e.2 s = JsonValue.null) ∧ init.lookup k = some x) := by
  induction tbl generalizing init with
  | nil =>
    refine ⟨init, rfl, ?_⟩
    intro k x
    simp
  | cons e tbl ih =>
    rw [List.map_cons, List.nodup_cons] at hnd
    have hwt1 : ∀ e1 ∈ tbl, isNullOrNumber (e1.2 s) = true :=
      fun e1 h1 => hwt e1 (List.mem_cons_of_mem _ h1)
    have hfresh : ∀ e1 ∈ tbl, e1.1 ≠ e.1 := by
      intro e1 h1 heq
      apply hnd.1
      rw [← heq]
      exact List.mem_map_of_mem Prod.fst h1
    rw [foldlM_setField_cons]
    rcases (isNullOrNumber_iff _).1 (hwt e (List.mem_cons_self _ _)) with hv | ⟨y, hv⟩
    · obtain ⟨a, ha, hspec⟩ := ih hnd.2 hwt1 init
      refine ⟨a, ?_, ?_⟩
      · rw [hv]
        exact ha
      · intro k x
        rw [hspec k x]
        simp only [List.mem_cons, exists_eq_or_imp, forall_eq_or_imp, hv]
        simp
    · obtain ⟨a, ha, hspec⟩ := ih hnd.2 hwt1 (init.insert e.1 y)
      refine ⟨a, ?_, ?_⟩
      · rw [hv]
        exact ha
      · intro k x
        rw [hspec k x]
        simp only [List.mem_cons, exists_eq_or_imp, forall_eq_or_imp, hv]
        by_cases hk : k = e.1
        · subst hk
          have hno : ¬ ∃ e1 ∈ tbl, e1.1 = e.1 ∧ e1.2 s = JsonValue.number x :=
            fun ⟨e1, h1, h2, _⟩ => hfresh e1 h1 h2
          have hall : ∀ e1 ∈ tbl, e1.1 = e.1 → e1.2 s = JsonValue.null :=
            fun e1 h1 h2 => absurd h2 (hfresh e1 h1)
          simp [hno, AList.lookup_insert]
          exact fun _ a b hab ha => hall (a, b) hab ha
        · have hk1 : ¬ e.1 = k := fun h => hk h.symm
          simp [hk1, AList.lookup_insert_ne hk]

theorem foldlM_setField_wellTyped (s : Statistics)
    (tbl : List (String × (Statistics → JsonValue))) (init a : Metrics)
    (h : tbl.foldlM (fun a e => setField a e.1 (e.2 s)) init = some a) :
    ∀ e ∈ tbl, isNullOrNumber (e.2 s) = true := by
  induction tbl generalizing init with
  | nil => simp
  | cons e tbl ih =>
    rw [foldlM_setField_cons] at h
    cases hs : setField init e.1 (e.2 s) with
    | none => simp [hs] at h
    | some a1 =>
      rw [hs] at h
      intro e1 h1
      rcases List.mem_cons.1 h1 with h2 | h2
      · rw [h2]
        exact setField_eq_some hs
      · exact ih a1 h e1 h2

theorem fieldTable_nodup : (fieldTable.map Prod.fst).Nodup := by
  decide

/-- The per-instance map of a record whose fields are `null` or numbers. -/
theorem buildMap_some (s : Statistics) (hwt : ∀ e ∈ fieldTable, isNullOrNumber (e.2 s) = true) :
    ∃ a, buildMap s = some a ∧
      ∀ k x, a.lookup k = some x ↔ ∃ e ∈ fieldTable, e.1 = k ∧ e.2 s = JsonValue.number x := by
  obtain ⟨a, ha, hspec⟩ := foldlM_setField_some s fieldTable fieldTable_nodup hwt ∅
  refine ⟨a, ha, ?_⟩
  intro k x
  rw [hspec k x]
  simp

theorem buildMap_wellTyped {s : Statistics} {a : Metrics} (h : buildMap s = some a) :
    ∀ e ∈ fieldTable, isNullOrNumber (e.2 s) = true :=
  foldlM_setField_wellTyped s fieldTable ∅ a h

theorem flattenData_append_one (tasks : List Task) (task : Task) :
    flattenData (tasks ++ [task]) = (flattenData tasks).bind (fun acc => flattenStep acc task) := by
  unfold flattenData
  rw [List.foldlM_append]
  cases h : tasks.foldlM flattenStep ∅ with
  | none => rfl
  | some acc =>
    show List.foldlM flattenStep acc [task] = flattenStep acc task
    rw [foldlM_flattenStep_cons]
    cases flattenStep acc task <;> rfl

theorem flattenStep_some_iff (m : TasksMap) (task : Task) :
    (∃ m1, flattenStep m task = some m1) ↔
      ((extractName task.ExecutorId).isSome →
        ∀ e ∈ fieldTable, isNullOrNumber (e.2 task.Statistics) = true) := by
  cases hn : extractName task.ExecutorId with
  | none =>
    rw [flattenStep_of_none hn]
    simp
  | some name =>
    rw [flattenStep_of_some hn]
    simp only [Option.isSome_some, true_implies]
    constructor
    · rintro ⟨m1, h1⟩
      cases hb : buildMap task.Statistics with
      | none => simp [hb] at h1
      | some a => exact buildMap_wellTyped hb
    · intro hwt
      obtain ⟨a, ha, _⟩ := buildMap_some task.Statistics hwt
      rw [ha]
      exact ⟨_, rfl⟩

theorem foldlM_flattenStep_some_iff (tasks : List Task) (init : TasksMap) :
    (∃ acc, tasks.foldlM flattenStep init = some acc) ↔
      ∀ task ∈ tasks, (extractName task.ExecutorId).isSome →
        ∀ e ∈ fieldTable, isNullOrNumber (e.2 task.Statistics) = true := by
  induction tasks generalizing init with
  | nil => simp
  | cons task tasks ih =>
    rw [foldlM_flattenStep_cons]
    simp only [List.mem_cons, forall_eq_or_imp]
    rw [← flattenStep_some_iff init task]
    constructor
    · rintro ⟨acc, hacc⟩
      cases hs : flattenStep init task with
      | none => simp [hs] at hacc
      | some m1 =>
        rw [hs] at hacc
        exact ⟨⟨m1, rfl⟩, (ih m1).1 ⟨acc, hacc⟩⟩
    · rintro ⟨⟨m1, hs⟩, hrest⟩
      rw [hs]
      exact (ih m1).2 hrest

theorem buildMap_keys {s : Statistics} {a : Metrics} (h : buildMap s = some a) :
    ∀ k, k ∈ a → k ∈ recognizedNames := by
  obtain ⟨a1, ha1, hspec⟩ := buildMap_some s (buildMap_wellTyped h)
  rw [h] at ha1
  cases ha1
  intro k hk
  obtain ⟨x, hx⟩ := Option.isSome_iff_exists.1 (AList.lookup_isSome.2 hk)
  obtain ⟨e, he, hke, _⟩ := (hspec k x).1 hx
  rw [← hke]
  exact List.mem_map_of_mem Prod.fst he

theorem recognized_flattenStep {m m1 : TasksMap} {task : Task}
    (h : flattenStep m task = some m1)
    (hm : ∀ t list, m.lookup t = some list → ∀ a ∈ list, ∀ k, k ∈ a → k ∈ recognizedNames) :
    ∀ t list, m1.lookup t = some list → ∀ a ∈ list, ∀ k, k ∈ a → k ∈ recognizedNames := by
  cases hn : extractName task.ExecutorId with
  | none =>
    rw [flattenStep_of_none hn] at h
    cases h
    exact hm
  | some name =>
    rw [flattenStep_of_some hn] at h
    cases hb : buildMap task.Statistics with
    | none => simp [hb] at h
    | some a =>
      simp only [hb, Option.map_some', Option.some.injEq] at h
      subst h
      intro t list hl a1 ha1 k hk
      by_cases hname : t = name
      · subst hname
        rw [AList.lookup_insert] at hl
        cases hl
        rcases List.mem_append.1 ha1 with h1 | h1
        · cases hold : m.lookup t with
          | none => simp [hold] at h1
          | some old =>
            rw [hold] at h1
            exact hm t old hold a1 h1 k hk
        · rw [List.mem_singleton] at h1
          subst h1
          exact buildMap_keys hb k hk
      · rw [AList.lookup_insert_ne hname] at hl
        exact hm t list hl a1 ha1 k hk

theorem recognized_foldlM_flattenStep (tasks : List Task) (init acc : TasksMap)
    (h : tasks.foldlM flattenStep init = some acc)
    (hm : ∀ t list, init.lookup t = some list → ∀ a ∈ list, ∀ k, k ∈ a → k ∈ recognizedNames) :
    ∀ t list, acc.lookup t = some list → ∀ a ∈ list, ∀ k, k ∈ a → k ∈ recognizedNames := by
  induction tasks generalizing init with
  | nil =>
    simp only [List.foldlM_nil] at h
    cases h
    exact hm
  | cons task tasks ih =>
    rw [foldlM_flattenStep_cons] at h
    cases hs : flattenStep init task with
    | none => simp [hs] at h
    | some m1 =>
      rw [hs] at h
      exact ih m1 h (recognized_flattenStep hs hm)

/-- The accumulator `flattenData` returns uses recognized metric names only. -/
theorem onlyRecognized_flattenData {tasks : List Task} {acc : TasksMap}
    (h : flattenData tasks = some acc) : onlyRecognized acc = true := by
  rw [onlyRecognized_iff]
  exact recognized_foldlM_flattenStep tasks ∅ acc h (by simp)

theorem length_le_of_nodup_of_subset {l1 l2 : List String} (hnd : l1.Nodup) (hsub : l1 ⊆ l2) :
    l1.length ≤ l2.length :=
  (List.subperm_of_subset hnd hsub).length_le

theorem nonPercKeys_subset {data : TasksMap} (hrec : onlyRecognized data = true) {t : String}
    {out : Metrics} (ht : (avgMetrics data).lookup t = some out) :
    nonPercKeys out ⊆ "instances" :: recognizedNames := by
  obtain ⟨list, hl, rfl⟩ := avgMetrics_lookup_some ht
  intro k hk
  unfold nonPercKeys at hk
  rw [List.mem_filter] at hk
  obtain ⟨hmem, hne⟩ := hk
  simp only [decide_eq_true_eq] at hne
  have hk1 : k ∈ avgGroup list :=
    (mem_addPerc_iff _ k hne.1 hne.2).1 (AList.mem_keys.2 hmem)
  rcases (mem_avgGroup_iff list k).1 hk1 with h1 | ⟨m, hm, hkm⟩
  · rw [h1]
    exact List.mem_cons_self _ _
  · exact List.mem_cons_of_mem _ ((onlyRecognized_iff data).1 hrec t list hl m hm k hkm)

theorem sum_length_kerase (l : List (Sigma fun _ : String => List Metrics)) (a : String) :
    (l.map (fun e => e.2.length)).sum =
      ((l.kerase a).map (fun e => e.2.length)).sum + ((l.dlookup a).getD []).length := by
  induction l with
  | nil => simp
  | cons e l ih =>
    obtain ⟨b, v⟩ := e
    by_cases hab : a = b
    · subst hab
      simp [List.kerase_cons_eq, List.dlookup_cons_eq]
      omega
    · have h1 : List.kerase a (Sigma.mk b v :: l) = Sigma.mk b v :: List.kerase a l :=
        List.kerase_cons_ne hab
      have h2 : List.dlookup a (Sigma.mk b v :: l) = List.dlookup a l :=
        List.dlookup_cons_ne l (Sigma.mk b v) hab
      rw [h1, h2]
      simp only [List.map_cons, List.sum_cons]
      rw [ih]
      omega

theorem totalInstances_insert (m : TasksMap) (name : String) (a : Metrics) :
    totalInstances (m.insert name ((m.lookup name).getD [] ++ [a])) = totalInstances m + 1 := by
  unfold totalInstances
  rw [AList.insert_entries, sum_length_kerase m.entries name]
  have hd : List.dlookup name m.entries = m.lookup name := rfl
  rw [hd]
  simp only [List.map_cons, List.sum_cons, List.length_append, List.length_singleton]
  omega

theorem totalInstances_flattenStep {m m1 : TasksMap} {task : Task}
    (h : flattenStep m task = some m1) :
    totalInstances m1 =
      totalInstances m + if (extractName task.ExecutorId).isSome then 1 else 0 := by
  cases hn : extractName task.ExecutorId with
  | none =>
    rw [flattenStep_of_none hn] at h
    cases h
    simp
  | some name =>
    rw [flattenStep_of_some hn] at h
    cases hb : buildMap task.Statistics with
    | none => simp [hb] at h
    | some a =>
      simp only [hb, Option.map_some', Option.some.injEq] at h
      subst h
      rw [totalInstances_insert]
      simp

theorem totalInstances_foldlM_flattenStep (tasks : List Task) (init acc : TasksMap)
    (h : tasks.foldlM flattenStep init = some acc) :
    totalInstances acc = totalInstances init + matchingCount tasks := by
  induction tasks generalizing init with
  | nil =>
    simp only [List.foldlM_nil] at h
    cases h
    simp [matchingCount]
  | cons task tasks ih =>
    rw [foldlM_flattenStep_cons] at h
    cases hs : flattenStep init task with
    | none => simp [hs] at h
    | some m1 =>
      rw [hs] at h
      rw [ih m1 h, totalInstances_flattenStep hs]
      unfold matchingCount
      rw [List.countP_cons]
      cases hx : (extractName task.ExecutorId).isSome <;> simp
      omega

/-! ## Lemmas on genLineProto -/

theorem foldl_append_singleton {α β : Type} (f : α → β) (l : List α) (init : List β) :
    l.foldl (fun acc e => acc ++ [f e]) init = init ++ l.map f := by
  induction l generalizing init with
  | nil => simp
  | cons e l ih => simp [ih]

theorem fieldList_eq_map (value : Metrics) :
    fieldList value = value.entries.map (fun e => e.1 ++ "=" ++ formatFixed3 e.2) := by
  unfold fieldList AList.foldl
  rw [foldl_append_singleton (fun e : (Sigma fun _ : String => ℚ) =>
    e.1 ++ "=" ++ formatFixed3 e.2)]
  simp

theorem genLineProto_eq_map (data : AvgMap) :
    genLineProto data = String.intercalate "\n" (data.entries.map (fun g =>
      "mesos_tasks,task_name=" ++ g.1 ++ " " ++ String.intercalate "," (fieldList g.2))) := by
  unfold genLineProto AList.foldl
  simp only
  rw [foldl_append_singleton (fun g : (Sigma fun _ : String => Metrics) =>
    "mesos_tasks,task_name=" ++ g.1 ++ " " ++ String.intercalate "," (fieldList g.2))]
  simp

theorem endsWithoutNewline_append (a b : String) (hb : endsWithoutNewline b) :
    endsWithoutNewline (a ++ b) := by
  obtain ⟨c, hc, hne⟩ := hb
  refine ⟨c, ?_, hne⟩
  rw [String.data_append, List.getLast?_append, hc]
  rfl

theorem endsWithoutNewline_go (l : List String) (acc s : String)
    (hacc : endsWithoutNewline acc) (hl : ∀ a ∈ l, endsWithoutNewline a) :
    endsWithoutNewline (String.intercalate.go acc s l) := by
  induction l generalizing acc with
  | nil => exact hacc
  | cons a l ih =>
    show endsWithoutNewline (String.intercalate.go (acc ++ s ++ a) s l)
    exact ih _ (endsWithoutNewline_append _ _ (hl a (List.mem_cons_self _ _)))
      (fun b hb => hl b (List.mem_cons_of_mem _ hb))

theorem endsWithoutNewline_intercalate (s : String) (l : List String) (hne : l ≠ [])
    (hl : ∀ a ∈ l, endsWithoutNewline a) : endsWithoutNewline (String.intercalate s l) := by
  cases l with
  | nil => exact absurd rfl hne
  | cons a l =>
    show endsWithoutNewline (String.intercalate.go a s l)
    exact endsWithoutNewline_go l a s (hl a (List.mem_cons_self _ _))
      (fun b hb => hl b (List.mem_cons_of_mem _ hb))

theorem digitChar_ne_newline (n : Nat) : Nat.digitChar (n % 10) ≠ '\n' := by
  have h : n % 10 < 10 := Nat.mod_lt _ (by decide)
  generalize n % 10 = d at h
  interval_cases d <;> decide

theorem endsWithoutNewline_formatFixed3 (value : ℚ) : endsWithoutNewline (formatFixed3 value) := by
  unfold formatFixed3
  simp only
  apply endsWithoutNewline_append
  exact ⟨_, rfl, digitChar_ne_newline _⟩

theorem endsWithoutNewline_line (t : String) (value : Metrics) :
    endsWithoutNewline
      ("mesos_tasks,task_name=" ++ t ++ " " ++ String.intercalate "," (fieldList value)) := by
  cases hf : fieldList value with
  | nil =>
    refine ⟨' ', ?_, by decide⟩
    have h1 : "mesos_tasks,task_name=" ++ t ++ " " ++ String.intercalate "," [] =
        ("mesos_tasks,task_name=" ++ t) ++ " " := String.append_empty _
    rw [h1, String.data_append]
    exact List.getLast?_concat _
  | cons a l =>
    apply endsWithoutNewline_append
    apply endsWithoutNewline_intercalate _ _ (by simp)
    intro b hb
    rw [← hf, fieldList_eq_map] at hb
    obtain ⟨e, _, rfl⟩ := List.mem_map.1 hb
    exact endsWithoutNewline_append _ _ (endsWithoutNewline_formatFixed3 _)

theorem genLineProto_no_trailing_newline (data : AvgMap) :
    (genLineProto data).data.getLast? ≠ some '\n' := by
  rw [genLineProto_eq_map]
  cases hd : data.entries with
  | nil => simp [String.intercalate]
  | cons g l =>
    have hends := endsWithoutNewline_intercalate "\n"
      ((g :: l).map (fun g : (Sigma fun _ : String => Metrics) =>
        "mesos_tasks,task_name=" ++ g.1 ++ " " ++ String.intercalate "," (fieldList g.2)))
      (by simp)
      (by
        intro b hb
        obtain ⟨e, _, rfl⟩ := List.mem_map.1 hb
        exact endsWithoutNewline_line _ _)
    obtain ⟨c, hc, hne⟩ := hends
    rw [hc]
    intro h
    exact hne (Option.some.inj h)

/-! ## The claims -/

/-- C1: `avgMetrics` averages over the full instance count.  For a task group
with list `list` and a recognized metric name `k` that occurs in at least one
member, the output value of `k` is the sum of the values of `k` over the members
that contain `k`, divided by the length of `list`; this is also the sum over all
members with a missing `k` read as `0`, and the length is at least `1`. -/
theorem avgMetrics_divides_by_instance_count (data : TasksMap) (t : String)
    (list : List Metrics) (k : String) (ht : data.lookup t = some list)
    (hk : k ∈ recognizedNames) (hmem : ∃ m ∈ list, k ∈ m) :
    1 ≤ list.length ∧
    ∃ out, (avgMetrics data).lookup t = some out ∧
      out.lookup k = some ((list.filterMap (fun m => m.lookup k)).sum / (list.length : ℚ)) ∧
      out.lookup k = some ((list.map (fun m => getValue m k)).sum / (list.length : ℚ)) := by
  obtain ⟨h1, h2, h3⟩ := recognized_ne_derived hk
  have hval : (addPerc (avgGroup list)).lookup k =
      some ((list.filterMap (fun m => m.lookup k)).sum / (list.length : ℚ)) := by
    rw [lookup_addPerc _ _ h2 h3, lookup_avgGroup _ _ h1, if_pos hmem]
  refine ⟨?_, addPerc (avgGroup list), ?_, hval, ?_⟩
  · obtain ⟨m, hm, _⟩ := hmem
    exact List.length_pos_of_mem hm
  · rw [lookup_avgMetrics, ht]
    rfl
  · rw [hval, sum_filterMap_lookup]

/-- C1 at the two examples of the specification: values 100 and 300 give 200,
and one member with `cpus_limit = 10` and one without give 5. -/
theorem avgMetrics_divides_by_instance_count_witness :
    (∃ out, (avgMetrics exampleGroups).lookup "a" = some out ∧
      out.lookup "mem_rss_bytes" = some 200) ∧
    (∃ out, (avgMetrics exampleGroups).lookup "b" = some out ∧
      out.lookup "cpus_limit" = some 5) := by
  constructor
  · obtain ⟨_, out, h1, h2, _⟩ := avgMetrics_divides_by_instance_count exampleGroups "a"
      [AList.singleton "mem_rss_bytes" 100, AList.singleton "mem_rss_bytes" 300]
      "mem_rss_bytes" (by rfl) (by decide) ⟨_, List.mem_cons_self _ _, by decide⟩
    refine ⟨out, h1, ?_⟩
    rw [h2]
    decide!
  · obtain ⟨_, out, h1, h2, _⟩ := avgMetrics_divides_by_instance_count exampleGroups "b"
      [AList.singleton "cpus_limit" 10, ∅]
      "cpus_limit" (by rfl) (by decide) ⟨_, List.mem_cons_self _ _, by decide⟩
    refine ⟨out, h1, ?_⟩
    rw [h2]
    decide!

/-- C2: for every sequence of records on which `flattenData` returns, and every
task group present in `avgMetrics (flattenData records)`, the value of `instances`
is the number of records whose executor id extracts to the name of the group, and
that number is at least `1`. -/
theorem instances_eq_matchCount (tasks : List Task) (acc : TasksMap)
    (h : flattenData tasks = some acc) (t : String) (out : Metrics)
    (ht : (avgMetrics acc).lookup t = some out) :
    out.lookup "instances" = some (matchCount tasks t : ℚ) ∧ 1 ≤ matchCount tasks t := by
  rw [lookup_avgMetrics] at ht
  cases hl : acc.lookup t with
  | none => simp [hl] at ht
  | some list =>
    simp only [hl, Option.map_some', Option.some.injEq] at ht
    subst ht
    obtain ⟨hlen, hne⟩ := lookup_flattenData h hl
    constructor
    · rw [lookup_addPerc _ _ (by decide) (by decide), lookup_avgGroup_instances, hlen]
    · rw [← hlen]
      exact List.length_pos.2 hne

/-- C2 on the example records: the group `a` of the output has `instances = 2`. -/
theorem instances_eq_matchCount_witness :
    ∃ acc out, flattenData exampleTasks = some acc ∧ (avgMetrics acc).lookup "a" = some out ∧
      out.lookup "instances" = some 2 ∧ 1 ≤ matchCount exampleTasks "a" := by
  obtain ⟨acc, hacc⟩ : ∃ acc, flattenData exampleTasks = some acc := ⟨_, rfl⟩
  obtain ⟨list, hlist⟩ := lookup_flattenData_of_pos hacc (show 0 < matchCount exampleTasks "a" by decide)
  have hout : (avgMetrics acc).lookup "a" = some (addPerc (avgGroup list)) := by
    rw [lookup_avgMetrics, hlist]
    rfl
  have hc : matchCount exampleTasks "a" = 2 := by decide
  have hmain := instances_eq_matchCount exampleTasks acc hacc "a" _ hout
  rw [hc] at hmain
  exact ⟨acc, _, hacc, hout, by simpa using hmain.1, hmain.2⟩

/-- C3: for an accumulator whose member maps use recognized metric names only and
every task group of the output of `avgMetrics`, `mem_perc` is present exactly when
`mem_rss_bytes` and `mem_limit_bytes` are both present in the averaged map and the
averaged `mem_limit_bytes` is not `0`; likewise `disk_perc` with `disk_used_bytes`
and `disk_limit_bytes`. -/
theorem perc_present_iff (data : TasksMap) (hrec : onlyRecognized data = true) (t : String)
    (out : Metrics) (ht : (avgMetrics data).lookup t = some out) :
    ("mem_perc" ∈ out ↔
      "mem_rss_bytes" ∈ out ∧ "mem_limit_bytes" ∈ out ∧
        out.lookup "mem_limit_bytes" ≠ some 0) ∧
    ("disk_perc" ∈ out ↔
      "disk_used_bytes" ∈ out ∧ "disk_limit_bytes" ∈ out ∧
        out.lookup "disk_limit_bytes" ≠ some 0) := by
  obtain ⟨list, hl, rfl⟩ := avgMetrics_lookup_some ht
  obtain ⟨hm0, hd0⟩ := no_perc_in_avgGroup hrec hl
  have hval : ∀ k : String, k ≠ "mem_perc" → k ≠ "disk_perc" → k ∈ avgGroup list →
      ((addPerc (avgGroup list)).lookup k ≠ some 0 ↔ getValue (avgGroup list) k ≠ 0) := by
    intro k h1 h2 hk
    rw [lookup_addPerc _ _ h1 h2, lookup_eq_some_getValue hk]
    simp
  constructor
  · rw [(present_after_addPerc _ hm0 hd0).1, mem_addPerc_iff _ _ (by decide) (by decide),
      mem_addPerc_iff _ _ (by decide) (by decide)]
    constructor
    · rintro ⟨a, b, c⟩
      exact ⟨a, b, (hval _ (by decide) (by decide) b).2 c⟩
    · rintro ⟨a, b, c⟩
      exact ⟨a, b, (hval _ (by decide) (by decide) b).1 c⟩
  · rw [(present_after_addPerc _ hm0 hd0).2, mem_addPerc_iff _ _ (by decide) (by decide),
      mem_addPerc_iff _ _ (by decide) (by decide)]
    constructor
    · rintro ⟨a, b, c⟩
      exact ⟨a, b, (hval _ (by decide) (by decide) b).2 c⟩
    · rintro ⟨a, b, c⟩
      exact ⟨a, b, (hval _ (by decide) (by decide) b).1 c⟩

/-- C3 on the example of the specification: with `mem_rss_bytes = 50`,
`mem_limit_bytes = 200`, `disk_used_bytes = 50` and `disk_limit_bytes = 0` the
output has `mem_perc` and has no `disk_perc`. -/
theorem perc_present_iff_witness :
    onlyRecognized examplePerc = true ∧
    ∃ out, (avgMetrics examplePerc).lookup "c" = some out ∧
      "mem_perc" ∈ out ∧ "disk_perc" ∉ out := by
  have hout : (avgMetrics examplePerc).lookup "c" = some (addPerc (avgGroup
      [AList.insert "mem_rss_bytes" 50 (AList.insert "mem_limit_bytes" 200
        (AList.insert "disk_used_bytes" 50 (AList.singleton "disk_limit_bytes" 0)))])) := by
    rw [lookup_avgMetrics]
    rfl
  obtain ⟨hm, hd⟩ := perc_present_iff examplePerc (by decide) "c" _ hout
  refine ⟨by decide, _, hout, hm.2 ⟨by decide!, by decide!, by decide!⟩, ?_⟩
  intro h
  exact (hd.1 h).2.2 (by decide!)

/-- C4: for an accumulator whose member maps use recognized metric names only and
every task group of the output of `avgMetrics`, a present `mem_perc` is the
averaged `mem_rss_bytes` divided by the averaged `mem_limit_bytes`, times 100, and
a present `disk_perc` is the averaged `disk_used_bytes` divided by the averaged
`disk_limit_bytes`, times 100; the divisor is not `0`. -/
theorem perc_value (data : TasksMap) (hrec : onlyRecognized data = true) (t : String)
    (out : Metrics) (ht : (avgMetrics data).lookup t = some out) :
    ("mem_perc" ∈ out →
      ∃ r l, out.lookup "mem_rss_bytes" = some r ∧ out.lookup "mem_limit_bytes" = some l ∧
        l ≠ 0 ∧ out.lookup "mem_perc" = some (r / l * 100)) ∧
    ("disk_perc" ∈ out →
      ∃ u l, out.lookup "disk_used_bytes" = some u ∧ out.lookup "disk_limit_bytes" = some l ∧
        l ≠ 0 ∧ out.lookup "disk_perc" = some (u / l * 100)) := by
  obtain ⟨list, hl, rfl⟩ := avgMetrics_lookup_some ht
  obtain ⟨hm0, hd0⟩ := no_perc_in_avgGroup hrec hl
  constructor
  · intro hp
    obtain ⟨h1, h2, h3⟩ := (present_after_addPerc _ hm0 hd0).1.1 hp
    refine ⟨_, _, ?_, ?_, h3, lookup_addPerc_mem _ hm0 hp⟩
    · rw [lookup_addPerc _ _ (by decide) (by decide)]
      exact lookup_eq_some_getValue h1
    · rw [lookup_addPerc _ _ (by decide) (by decide)]
      exact lookup_eq_some_getValue h2
  · intro hp
    obtain ⟨h1, h2, h3⟩ := (present_after_addPerc _ hm0 hd0).2.1 hp
    refine ⟨_, _, ?_, ?_, h3, lookup_addPerc_disk _ hd0 hp⟩
    · rw [lookup_addPerc _ _ (by decide) (by decide)]
      exact lookup_eq_some_getValue h1
    · rw [lookup_addPerc _ _ (by decide) (by decide)]
      exact lookup_eq_some_getValue h2

/-- C4 on the example of the specification: `mem_rss_bytes = 50` and
`mem_limit_bytes = 200` give `mem_perc = 25`. -/
theorem perc_value_witness :
    onlyRecognized examplePerc = true ∧
    ∃ out, (avgMetrics examplePerc).lookup "c" = some out ∧
      out.lookup "mem_perc" = some 25 := by
  have hout : (avgMetrics examplePerc).lookup "c" = some (addPerc (avgGroup
      [AList.insert "mem_rss_bytes" 50 (AList.insert "mem_limit_bytes" 200
        (AList.insert "disk_used_bytes" 50 (AList.singleton "disk_limit_bytes" 0)))])) := by
    rw [lookup_avgMetrics]
    rfl
  obtain ⟨r, l, hr, hlim, _, hp⟩ := (perc_value examplePerc (by decide) "c" _ hout).1 (by decide!)
  have hr1 : r = 50 := Option.some.inj (hr.symm.trans (by decide!))
  have hl1 : l = 200 := Option.some.inj (hlim.symm.trans (by decide!))
  refine ⟨by decide, _, hout, ?_⟩
  rw [hp, hr1, hl1]
  norm_num

/-- C5: task-name extraction strips the instance suffix.  For a non-empty `name`
without a character of the class `\s`, a `uuid` of 36 hexadecimal digits or
hyphens and an `extra` without a dot, the name extracted from
`name ++ "." ++ uuid ++ extra` is `name`. -/
theorem extractName_strips_suffix (name uuid extra : String) (hne : name ≠ "")
    (hname : ∀ c ∈ name.data, isWhitespace c = false) (hlen : uuid.length = 36)
    (huuid : ∀ c ∈ uuid.data, isHexOrDash c = true) (hextra : '.' ∉ extra.data) :
    extractName (name ++ "." ++ uuid ++ extra) = some name := by
  have hdata : (name ++ "." ++ uuid ++ extra).data =
      name.data ++ '.' :: (uuid.data ++ extra.data) := by
    simp [String.data_append]
  have hne1 : name.data ≠ [] := by
    intro h
    apply hne
    cases name
    simp_all
  unfold extractName
  rw [hdata, findSubmatch_name_uuid name.data uuid.data extra.data hne1 hname hlen huuid hextra]
  rfl

/-- C5 on the example of the specification. -/
theorem extractName_strips_suffix_witness :
    extractName "web.1a2b3c4d-0000-0000-0000-000000000000extra" = some "web" :=
  extractName_strips_suffix "web" "1a2b3c4d-0000-0000-0000-000000000000" "extra"
    (by decide) (by decide) (by decide) (by decide) (by decide)

/-- C6: `flattenData` groups exactly the matching records.  Whenever it returns
an accumulator, the list stored under `t` has as many members as there are records
whose executor id extracts to `t`, `t` is absent when there is none and present
otherwise, and the number of per-instance maps over all groups is the number of
records whose executor id matches the pattern. -/
theorem flattenData_groups_matching (tasks : List Task) (acc : TasksMap)
    (h : flattenData tasks = some acc) :
    (∀ t : String,
      (∀ list, acc.lookup t = some list → list.length = matchCount tasks t) ∧
      (matchCount tasks t = 0 → acc.lookup t = none) ∧
      (0 < matchCount tasks t → ∃ list, acc.lookup t = some list)) ∧
    totalInstances acc = matchingCount tasks := by
  constructor
  · intro t
    refine ⟨fun list hl => (lookup_flattenData h hl).1, ?_, lookup_flattenData_of_pos h⟩
    intro h0
    cases hl : acc.lookup t with
    | none => rfl
    | some list =>
      obtain ⟨hlen, hne⟩ := lookup_flattenData h hl
      rw [h0] at hlen
      exact absurd (List.length_eq_zero.1 hlen) hne
  · have ht := totalInstances_foldlM_flattenStep tasks ∅ acc h
    rw [ht]
    simp [totalInstances]

/-- C6 on the example records: two maps under `a`, one under `b`, nothing under
the id `noiddashhere`, which matches no pattern, and three maps in all. -/
theorem flattenData_groups_matching_witness :
    extractName "noiddashhere" = none ∧
    ∃ acc, flattenData exampleTasks = some acc ∧
      (∃ list, acc.lookup "a" = some list ∧ list.length = 2) ∧
      (∃ list, acc.lookup "b" = some list ∧ list.length = 1) ∧
      acc.lookup "noiddashhere" = none ∧ totalInstances acc = 3 := by
  obtain ⟨acc, hacc⟩ : ∃ acc, flattenData exampleTasks = some acc := ⟨_, rfl⟩
  obtain ⟨hgroups, htotal⟩ := flattenData_groups_matching exampleTasks acc hacc
  refine ⟨by decide, acc, hacc, ?_, ?_, ?_, ?_⟩
  · obtain ⟨list, hl⟩ := (hgroups "a").2.2 (by decide)
    exact ⟨list, hl, ((hgroups "a").1 list hl).trans (by decide)⟩
  · obtain ⟨list, hl⟩ := (hgroups "b").2.2 (by decide)
    exact ⟨list, hl, ((hgroups "b").1 list hl).trans (by decide)⟩
  · exact (hgroups "noiddashhere").2.1 (by decide)
  · exact htotal.trans (by decide)

/-- C7: for a record with a matching executor id whose statistics fields are each
`null` or a number, `flattenData` appends under the extracted name a map that has
a key `k` exactly when `k` is the name of a recognized field that is not `null`,
and that stores under `k` the number of that field unchanged. -/
theorem flattenData_copies_fields (tasks : List Task) (acc : TasksMap)
    (h : flattenData tasks = some acc) (task : Task) (name : String)
    (hname : extractName task.ExecutorId = some name)
    (hwt : ∀ e ∈ fieldTable, isNullOrNumber (e.2 task.Statistics) = true) :
    ∃ a : Metrics,
      flattenData (tasks ++ [task]) =
        some (acc.insert name ((acc.lookup name).getD [] ++ [a])) ∧
      (∀ k, k ∈ a ↔ ∃ e ∈ fieldTable, e.1 = k ∧ e.2 task.Statistics ≠ JsonValue.null) ∧
      (∀ k x, a.lookup k = some x ↔
        ∃ e ∈ fieldTable, e.1 = k ∧ e.2 task.Statistics = JsonValue.number x) ∧
      (∀ k, k ∈ a → k ∈ recognizedNames) := by
  obtain ⟨a, ha, hspec⟩ := buildMap_some task.Statistics hwt
  have hmem : ∀ k, k ∈ a ↔ ∃ e ∈ fieldTable, e.1 = k ∧ e.2 task.Statistics ≠ JsonValue.null := by
    intro k
    rw [← AList.lookup_isSome, Option.isSome_iff_exists]
    constructor
    · rintro ⟨x, hx⟩
      obtain ⟨e, he, hk, hv⟩ := (hspec k x).1 hx
      exact ⟨e, he, hk, by rw [hv]; simp⟩
    · rintro ⟨e, he, hk, hv⟩
      rcases (isNullOrNumber_iff _).1 (hwt e he) with h0 | ⟨x, hx⟩
      · exact absurd h0 hv
      · exact ⟨x, (hspec k x).2 ⟨e, he, hk, hx⟩⟩
  refine ⟨a, ?_, hmem, hspec, ?_⟩
  · rw [flattenData_append_one, h]
    show flattenStep acc task = _
    rw [flattenStep_of_some hname, ha]
    rfl
  · intro k hk
    obtain ⟨e, he, hke, _⟩ := (hmem k).1 hk
    rw [← hke]
    exact List.mem_map_of_mem Prod.fst he

/-- C7 on a record with `mem_rss_bytes = 50` and `mem_limit_bytes = 100`: the map
appended has these two values and no `cpus_limit`. -/
theorem flattenData_copies_fields_witness :
    ∃ a : Metrics,
      flattenData ([] ++ [exampleRecord]) = some (AList.insert "a" ([] ++ [a]) ∅) ∧
      a.lookup "mem_rss_bytes" = some 50 ∧ a.lookup "mem_limit_bytes" = some 100 ∧
      "cpus_limit" ∉ a := by
  obtain ⟨a, h1, h2, h3, _⟩ := flattenData_copies_fields [] ∅ rfl exampleRecord "a"
    (by decide) (by decide)
  refine ⟨a, h1, (h3 _ _).2 ⟨("mem_rss_bytes", Statistics.MemRssBytes), by simp [fieldTable], rfl, rfl⟩,
    (h3 _ _).2 ⟨("mem_limit_bytes", Statistics.MemLimitBytes), by simp [fieldTable], rfl, rfl⟩, ?_⟩
  intro hc
  obtain ⟨e, he, hk, hv⟩ := (h2 _).1 hc
  simp only [fieldTable, List.mem_cons, List.mem_singleton, List.not_mem_nil, or_false] at he
  rcases he with h | h | h | h | h | h | h | h | h | h | h | h | h | h | h | h | h | h <;>
    subst h <;> first | exact absurd hk (by decide) | exact hv rfl

/-- C8, the claim as stated fails: on a record with a matching executor id whose
`mem_rss_bytes` is a JSON string the type assertion panics and `flattenData`
returns no accumulator. -/
theorem flattenData_panics_on_string :
    flattenData exampleBadTasks = none ∧ ¬ ∃ acc, flattenData exampleBadTasks = some acc := by
  have hnone : flattenData exampleBadTasks = none := rfl
  refine ⟨hnone, ?_⟩
  rintro ⟨acc, hacc⟩
  rw [hnone] at hacc
  cases hacc

/-- C8, amended: `flattenData` completes and returns an accumulator exactly when
every statistics field of every record with a matching executor id is `null` or a
number; the fields of records that match no pattern are never read. -/
theorem flattenData_returns_iff (tasks : List Task) :
    (∃ acc, flattenData tasks = some acc) ↔
      ∀ task ∈ tasks, (extractName task.ExecutorId).isSome →
        ∀ e ∈ fieldTable, isNullOrNumber (e.2 task.Statistics) = true :=
  foldlM_flattenStep_some_iff tasks ∅

/-- C8, amended, on the example records, all of them with fields that are `null`
or numbers. -/
theorem flattenData_returns_iff_witness :
    (∀ task ∈ exampleTasks, (extractName task.ExecutorId).isSome →
      ∀ e ∈ fieldTable, isNullOrNumber (e.2 task.Statistics) = true) ∧
    ∃ acc, flattenData exampleTasks = some acc :=
  ⟨by decide, (flattenData_returns_iff exampleTasks).2 (by decide)⟩

/-- C9, the claim as stated fails: `flattenData` writes 18 distinct metric names,
the per-instance map of a record with every field set has 18 entries, and its
averaged map has 19 keys besides the derived percentages. -/
theorem recognizedNames_more_than_17 :
    recognizedNames.Nodup ∧ recognizedNames.length ≠ 17 ∧
    (∃ a, buildMap exampleFull.Statistics = some a ∧ 17 < a.keys.length) ∧
    (∃ acc out, flattenData [exampleFull] = some acc ∧ (avgMetrics acc).lookup "a" = some out ∧
      18 < (nonPercKeys out).length) := by
  exact ⟨by decide, by decide, ⟨_, rfl, by decide⟩, ⟨_, _, rfl, rfl, by decide!⟩⟩

/-- C9, amended: the metric names `flattenData` can write are exactly 18 distinct
names; no per-instance map has more than 18 entries, and every task group of
`avgMetrics (flattenData records)` has at most 19 keys besides the derived
percentages (18 recognized metrics and `instances`). -/
theorem recognizedNames_count :
    recognizedNames.Nodup ∧ recognizedNames.length = 18 ∧
    (∀ s a, buildMap s = some a → a.keys.length ≤ 18) ∧
    (∀ tasks acc t out, flattenData tasks = some acc → (avgMetrics acc).lookup t = some out →
      (nonPercKeys out).length ≤ 19) := by
  refine ⟨by decide, by decide, ?_, ?_⟩
  · intro s a h
    have hsub : a.keys ⊆ recognizedNames := fun k hk => buildMap_keys h k (AList.mem_keys.2 hk)
    exact length_le_of_nodup_of_subset a.keys_nodup hsub
  · intro tasks acc t out h ht
    have hsub := nonPercKeys_subset (onlyRecognized_flattenData h) ht
    have hnd : (nonPercKeys out).Nodup := List.Nodup.filter _ out.keys_nodup
    exact length_le_of_nodup_of_subset hnd hsub

/-- C9, amended, on two records: the per-instance map of the record with two
fields set has at most 18 entries, and the averaged map of the record with every
field set has at most 19 keys besides the derived percentages. -/
theorem recognizedNames_count_witness :
    (∃ a, buildMap exampleRecord.Statistics = some a ∧ a.keys.length ≤ 18) ∧
    (∃ acc out, flattenData [exampleFull] = some acc ∧ (avgMetrics acc).lookup "a" = some out ∧
      (nonPercKeys out).length ≤ 19) :=
  ⟨⟨_, rfl, recognizedNames_count.2.2.1 exampleRecord.Statistics _ (by rfl)⟩,
    ⟨_, _, rfl, rfl, recognizedNames_count.2.2.2 [exampleFull] _ "a" _ (by rfl) (by rfl)⟩⟩

/-- C10: for an averaged map with `g` task groups, `genLineProto` returns `g`
lines joined by single newline characters, without a newline at the end; in the
iteration order of the maps, the line of the group `t` with metric map `m` is
`mesos_tasks,task_name=` followed by `t` verbatim, a space, and the fields
`k=` followed by the rendering of `m[k]`, joined by commas, one field for every
key of `m`. -/
theorem genLineProto_format (data : AvgMap) :
    genLineProto data =
      String.intercalate "\n" (data.entries.map (fun g =>
        "mesos_tasks,task_name=" ++ g.1 ++ " " ++
          String.intercalate "," (g.2.entries.map (fun e => e.1 ++ "=" ++ formatFixed3 e.2)))) ∧
    (data.entries.map (fun g =>
        "mesos_tasks,task_name=" ++ g.1 ++ " " ++
          String.intercalate "," (g.2.entries.map (fun e => e.1 ++ "=" ++ formatFixed3 e.2)))).length =
      data.keys.length ∧
    (genLineProto data).data.getLast? ≠ some '\n' ∧
    data.keys.Nodup ∧
    (∀ t m, Sigma.mk t m ∈ data.entries ↔ data.lookup t = some m) ∧
    (∀ g ∈ data.entries, g.2.keys.Nodup ∧
      (g.2.entries.map (fun e => e.1 ++ "=" ++ formatFixed3 e.2)).length = g.2.keys.length ∧
      ∀ k v, Sigma.mk k v ∈ g.2.entries ↔ g.2.lookup k = some v) := by
  refine ⟨?_, ?_, genLineProto_no_trailing_newline data, data.keys_nodup, ?_, ?_⟩
  · rw [genLineProto_eq_map]
    congr 2
    funext g
    rw [fieldList_eq_map]
  · simp [AList.keys, List.keys]
  · intro t m
    exact AList.mem_lookup_iff.symm
  · intro g _
    refine ⟨g.2.keys_nodup, ?_, fun k v => AList.mem_lookup_iff.symm⟩
    simp [AList.keys, List.keys]

/-- C10 on two averaged groups: two lines, one newline between them. -/
theorem genLineProto_format_witness :
    genLineProto exampleAveraged =
      "mesos_tasks,task_name=web instances=2.000,cpus_limit=0.500\nmesos_tasks,task_name=db instances=1.000" ∧
    exampleAveraged.keys.length = 2 :=
  ⟨(genLineProto_format exampleAveraged).1.trans (by decide!), by decide⟩

/-! ## Lemmas on the rendering of values -/

theorem digitChar_isDigit (n : Nat) : (Nat.digitChar (n % 10)).isDigit = true := by
  have h : n % 10 < 10 := Nat.mod_lt _ (by decide)
  generalize n % 10 = d at h
  interval_cases d <;> rfl

theorem toDigitsCore_isDigit (fuel n : Nat) (ds : List Char)
    (hds : ∀ c ∈ ds, c.isDigit = true) :
    ∀ c ∈ Nat.toDigitsCore 10 fuel n ds, c.isDigit = true := by
  induction fuel generalizing n ds with
  | zero => exact hds
  | succ fuel ih =>
    have hcons : ∀ c ∈ Nat.digitChar (n % 10) :: ds, c.isDigit = true := by
      intro c hc
      rcases List.mem_cons.1 hc with h | h
      · rw [h]
        exact digitChar_isDigit n
      · exact hds c h
    unfold Nat.toDigitsCore
    simp only
    split
    · exact hcons
    · exact ih _ _ hcons

theorem toDigitsCore_ne_nil (fuel n : Nat) (ds : List Char) (hds : ds ≠ []) :
    Nat.toDigitsCore 10 fuel n ds ≠ [] := by
  induction fuel generalizing n ds with
  | zero => exact hds
  | succ fuel ih =>
    unfold Nat.toDigitsCore
    simp only
    split
    · simp
    · exact ih _ _ (by simp)

theorem repr_isDigit (n : Nat) : ∀ c ∈ (Nat.repr n).data, c.isDigit = true :=
  toDigitsCore_isDigit (n + 1) n [] (by simp)

theorem repr_ne_nil (n : Nat) : (Nat.repr n).data ≠ [] := by
  show Nat.toDigitsCore 10 (n + 1) n [] ≠ []
  unfold Nat.toDigitsCore
  simp only
  split
  · simp
  · exact toDigitsCore_ne_nil _ _ _ (by simp)

/-- The shape of a rendered value: an optional minus sign, at least one digit, a
point and three digits. -/
theorem formatFixed3_shape (value : ℚ) :
    ∃ sign intPart fracPart : String,
      formatFixed3 value = sign ++ intPart ++ "." ++ fracPart ∧
      (sign = "" ∨ sign = "-") ∧
      intPart.data ≠ [] ∧ (∀ c ∈ intPart.data, c.isDigit = true) ∧
      fracPart.length = 3 ∧ (∀ c ∈ fracPart.data, c.isDigit = true) := by
  unfold formatFixed3
  simp only
  refine ⟨_, _, _, rfl, ?_, repr_ne_nil _, repr_isDigit _, rfl, ?_⟩
  · split
    · exact Or.inr rfl
    · exact Or.inl rfl
  · intro c hc
    simp only [List.mem_cons, List.mem_singleton, List.not_mem_nil, or_false] at hc
    rcases hc with h | h | h <;> rw [h] <;> exact digitChar_isDigit _

/-! ## The claims, continued -/

/-- C11: every value that `genLineProto` renders is written in fixed-point
notation with exactly three digits after the point.  Every field of a line is a
key, `=` and the rendering of the value of that key, and the rendering of every
value is an optional minus sign, at least one digit, a point and three digits. -/
theorem rendering_has_three_decimals :
    (∀ value : ℚ, ∃ sign intPart fracPart : String,
      formatFixed3 value = sign ++ intPart ++ "." ++ fracPart ∧
      (sign = "" ∨ sign = "-") ∧
      intPart.data ≠ [] ∧ (∀ c ∈ intPart.data, c.isDigit = true) ∧
      fracPart.length = 3 ∧ (∀ c ∈ fracPart.data, c.isDigit = true)) ∧
    (∀ (m : Metrics) (f : String), f ∈ fieldList m →
      ∃ k v, m.lookup k = some v ∧ f = k ++ "=" ++ formatFixed3 v) := by
  refine ⟨formatFixed3_shape, ?_⟩
  intro m f hf
  rw [fieldList_eq_map] at hf
  obtain ⟨e, he, rfl⟩ := List.mem_map.1 hf
  obtain ⟨k, v⟩ := e
  exact ⟨k, v, AList.mem_lookup_iff.2 he, rfl⟩

/-- C11 on the examples of the specification: 42 is rendered as `42.000`, a count
of 2 instances as `2.000`, and the field of `instances = 2` is `instances=2.000`. -/
theorem rendering_has_three_decimals_witness :
    formatFixed3 42 = "42.000" ∧ formatFixed3 2 = "2.000" ∧
    (∃ k v, (AList.singleton "instances" 2 : Metrics).lookup k = some v ∧
      "instances=2.000" = k ++ "=" ++ formatFixed3 v) :=
  ⟨by decide!, by decide!,
    rendering_has_three_decimals.2 (AList.singleton "instances" 2) "instances=2.000" (by decide!)⟩

/-! ## Lemmas on the order of the instances -/

theorem lookup_avgGroup_perm {list list1 : List Metrics} (hperm : list.Perm list1) (k : String) :
    (avgGroup list).lookup k = (avgGroup list1).lookup k := by
  by_cases hk : k = "instances"
  · subst hk
    rw [lookup_avgGroup_instances, lookup_avgGroup_instances, hperm.length_eq]
  · rw [lookup_avgGroup _ _ hk, lookup_avgGroup _ _ hk, hperm.length_eq,
      (hperm.filterMap (fun m : Metrics => m.lookup k)).sum_eq]
    have hex : (∃ m ∈ list, k ∈ m) ↔ ∃ m ∈ list1, k ∈ m := by
      constructor
      · rintro ⟨m, hm, hkm⟩
        exact ⟨m, hperm.mem_iff.1 hm, hkm⟩
      · rintro ⟨m, hm, hkm⟩
        exact ⟨m, hperm.mem_iff.2 hm, hkm⟩
    by_cases h : ∃ m ∈ list, k ∈ m
    · rw [if_pos h, if_pos (hex.1 h)]
    · rw [if_neg h, if_neg (fun h1 => h (hex.2 h1))]

theorem mem_congr_of_lookup {g g1 : Metrics} (h : ∀ k, g.lookup k = g1.lookup k) (k : String) :
    k ∈ g ↔ k ∈ g1 := by
  rw [← AList.lookup_isSome, ← AList.lookup_isSome, h k]

theorem getValue_congr_of_lookup {g g1 : Metrics} (h : ∀ k, g.lookup k = g1.lookup k)
    (k : String) : getValue g k = getValue g1 k := by
  unfold getValue
  rw [h k]

theorem lookup_addMemPerc_congr {g g1 : Metrics} (h : ∀ k, g.lookup k = g1.lookup k)
    (k : String) : (addMemPerc g).lookup k = (addMemPerc g1).lookup k := by
  unfold addMemPerc
  simp only [mem_congr_of_lookup h, getValue_congr_of_lookup h]
  split_ifs
  · by_cases hk : k = "mem_perc"
    · subst hk
      rw [AList.lookup_insert, AList.lookup_insert]
    · rw [AList.lookup_insert_ne hk, AList.lookup_insert_ne hk, h k]
  · exact h k
  · exact h k
  · exact h k

theorem lookup_addDiskPerc_congr {g g1 : Metrics} (h : ∀ k, g.lookup k = g1.lookup k)
    (k : String) : (addDiskPerc g).lookup k = (addDiskPerc g1).lookup k := by
  unfold addDiskPerc
  simp only [mem_congr_of_lookup h, getValue_congr_of_lookup h]
  split_ifs
  · by_cases hk : k = "disk_perc"
    · subst hk
      rw [AList.lookup_insert, AList.lookup_insert]
    · rw [AList.lookup_insert_ne hk, AList.lookup_insert_ne hk, h k]
  · exact h k
  · exact h k
  · exact h k

theorem lookup_addPerc_congr {g g1 : Metrics} (h : ∀ k, g.lookup k = g1.lookup k)
    (k : String) : (addPerc g).lookup k = (addPerc g1).lookup k :=
  lookup_addDiskPerc_congr (lookup_addMemPerc_congr h) k

/-- C12: the result of `avgMetrics` does not depend on the order of the instances
inside a group.  For two accumulators with the same task names in which the list
of every group of the one is a permutation of the list of that group in the other,
`avgMetrics` has the same groups and stores the same value, or none, under every
key of every group. -/
theorem avgMetrics_order_independent (data data1 : TasksMap)
    (h : ∀ t, (data.lookup t = none ∧ data1.lookup t = none) ∨
      ∃ list list1, data.lookup t = some list ∧ data1.lookup t = some list1 ∧
        list.Perm list1)
    (t k : String) :
    ((avgMetrics data).lookup t).map (fun out => out.lookup k) =
      ((avgMetrics data1).lookup t).map (fun out => out.lookup k) := by
  rw [lookup_avgMetrics, lookup_avgMetrics]
  rcases h t with ⟨h1, h2⟩ | ⟨list, list1, h1, h2, hperm⟩
  · rw [h1, h2]
  · rw [h1, h2]
    simp only [Option.map_some', Option.some.injEq]
    exact lookup_addPerc_congr (lookup_avgGroup_perm hperm) k

/-- C12 on the example groups and the same groups with the two members of `a`
swapped: the averaged `mem_rss_bytes` of `a` is the same. -/
theorem avgMetrics_order_independent_witness :
    ((avgMetrics exampleGroups).lookup "a").map (fun out => out.lookup "mem_rss_bytes") =
      ((avgMetrics exampleGroupsSwapped).lookup "a").map
        (fun out => out.lookup "mem_rss_bytes") := by
  apply avgMetrics_order_independent exampleGroups exampleGroupsSwapped
  intro t
  by_cases ha : t = "a"
  · subst ha
    exact Or.inr ⟨_, _, rfl, rfl, List.Perm.swap _ _ _⟩
  · by_cases hb : t = "b"
    · subst hb
      exact Or.inr ⟨_, _, rfl, rfl, List.Perm.refl _⟩
    · left
      constructor
      · rw [exampleGroups, AList.lookup_insert_ne ha, AList.lookup_insert_ne hb,
          AList.lookup_empty]
      · rw [exampleGroupsSwapped, AList.lookup_insert_ne hb, AList.lookup_insert_ne ha,
          AList.lookup_empty]

/-- C14: on the empty sequence of records the pipeline produces nothing:
`flattenData` returns the empty accumulator, `avgMetrics` of it is the empty map,
and `genLineProto` of that is the empty string. -/
theorem pipeline_on_no_records :
    flattenData [] = some ∅ ∧ avgMetrics ∅ = ∅ ∧ genLineProto ∅ = "" ∧
    (flattenData []).map (fun acc => genLineProto (avgMetrics acc)) = some "" :=
  ⟨rfl, rfl, rfl, rfl⟩

/-! ## Lemmas on the groups of avgMetrics -/

theorem mem_avgMetrics_iff (data : TasksMap) (t : String) : t ∈ avgMetrics data ↔ t ∈ data := by
  rw [← AList.lookup_isSome, ← AList.lookup_isSome, lookup_avgMetrics]
  cases data.lookup t <;> rfl

theorem lookup_avgGroup_nil (k : String) :
    (addPerc (avgGroup [])).lookup k = if k = "instances" then some 0 else none := by
  have h1 : "mem_rss_bytes" ∉ avgGroup [] := by
    rw [mem_avgGroup_iff]
    simp
  have h2 : "disk_used_bytes" ∉ avgGroup [] := by
    rw [mem_avgGroup_iff]
    simp
  have he : addPerc (avgGroup []) = avgGroup [] := by
    have hm : addMemPerc (avgGroup []) = avgGroup [] := by
      unfold addMemPerc
      rw [if_neg h1]
    unfold addPerc
    rw [hm]
    unfold addDiskPerc
    rw [if_neg h2]
  rw [he]
  by_cases hk : k = "instances"
  · subst hk
    rw [lookup_avgGroup_instances, if_pos rfl]
    simp
  · rw [lookup_avgGroup _ _ hk, if_neg hk]
    simp

theorem getValue_avgGroup_of_mem (list : List Metrics) (k : String) (hk : k ≠ "instances")
    (hmem : k ∈ avgGroup list) :
    getValue (avgGroup list) k =
      (list.filterMap (fun m => m.lookup k)).sum / (list.length : ℚ) ∧
    (list.length : ℚ) ≠ 0 := by
  have hex : ∃ m ∈ list, k ∈ m := by
    rcases (mem_avgGroup_iff list k).1 hmem with h | h
    · exact absurd h hk
    · exact h
  constructor
  · have hl := lookup_avgGroup list k hk
    rw [if_pos hex] at hl
    exact getValue_of_lookup hl
  · obtain ⟨m, hm, _⟩ := hex
    have hpos : 0 < list.length := List.length_pos_of_mem hm
    exact Nat.cast_ne_zero.2 (Nat.pos_iff_ne_zero.1 hpos)

theorem ratio_of_averages (a b n : ℚ) (hn : n ≠ 0) (hb : b / n ≠ 0) :
    a / n / (b / n) * 100 = 100 * a / b := by
  have hb0 : b ≠ 0 := by
    intro h
    apply hb
    rw [h, zero_div]
  field_simp
  ring

/-- C18: `avgMetrics` keeps the set of task groups unchanged.  The task names of
the output are the task names of the input, the output of a group is determined by
the list of that group alone, and a group with an empty list yields the map that
holds `instances = 0` and nothing else. -/
theorem avgMetrics_keeps_groups :
    (∀ (data : TasksMap) (t : String), t ∈ avgMetrics data ↔ t ∈ data) ∧
    (∀ (data data1 : TasksMap) (t : String), data.lookup t = data1.lookup t →
      (avgMetrics data).lookup t = (avgMetrics data1).lookup t) ∧
    (∀ (data : TasksMap) (t : String), data.lookup t = some [] →
      ∃ out, (avgMetrics data).lookup t = some out ∧
        ∀ k, out.lookup k = if k = "instances" then some 0 else none) := by
  refine ⟨mem_avgMetrics_iff, ?_, ?_⟩
  · intro data data1 t h
    rw [lookup_avgMetrics, lookup_avgMetrics, h]
  · intro data t h
    refine ⟨addPerc (avgGroup []), ?_, lookup_avgGroup_nil⟩
    rw [lookup_avgMetrics, h]
    rfl

/-- C18 on a task with an empty list: the output has that task, with
`instances = 0` and no other key. -/
theorem avgMetrics_keeps_groups_witness :
    "idle" ∈ avgMetrics exampleEmptyGroup ∧
    ∃ out, (avgMetrics exampleEmptyGroup).lookup "idle" = some out ∧
      out.lookup "instances" = some 0 ∧ out.lookup "mem_rss_bytes" = none := by
  obtain ⟨out, h1, h2⟩ := avgMetrics_keeps_groups.2.2 exampleEmptyGroup "idle" rfl
  refine ⟨(avgMetrics_keeps_groups.1 exampleEmptyGroup "idle").2 (by decide), out, h1, ?_, ?_⟩
  · rw [h2, if_pos rfl]
  · rw [h2, if_neg (by decide)]

/-- C16: the derived percentage is a ratio of sums.  For an accumulator whose
member maps use recognized metric names only and a group with list `list`, a
present `mem_perc` is 100 times the sum of `mem_rss_bytes` over the members that
have it, divided by the sum of `mem_limit_bytes` over the members that have it;
likewise `disk_perc` with `disk_used_bytes` and `disk_limit_bytes`.  The instance
count does not occur. -/
theorem perc_is_ratio_of_sums (data : TasksMap) (hrec : onlyRecognized data = true)
    (t : String) (list : List Metrics) (hl : data.lookup t = some list) :
    ∃ out, (avgMetrics data).lookup t = some out ∧
      ("mem_perc" ∈ out →
        out.lookup "mem_perc" =
          some (100 * (list.filterMap (fun m => m.lookup "mem_rss_bytes")).sum /
            (list.filterMap (fun m => m.lookup "mem_limit_bytes")).sum)) ∧
      ("disk_perc" ∈ out →
        out.lookup "disk_perc" =
          some (100 * (list.filterMap (fun m => m.lookup "disk_used_bytes")).sum /
            (list.filterMap (fun m => m.lookup "disk_limit_bytes")).sum)) := by
  obtain ⟨hm0, hd0⟩ := no_perc_in_avgGroup hrec hl
  refine ⟨addPerc (avgGroup list), ?_, ?_, ?_⟩
  · rw [lookup_avgMetrics, hl]
    rfl
  · intro hp
    obtain ⟨h1, h2, h3⟩ := (present_after_addPerc _ hm0 hd0).1.1 hp
    obtain ⟨e1, hn⟩ := getValue_avgGroup_of_mem list _ (by decide) h1
    obtain ⟨e2, _⟩ := getValue_avgGroup_of_mem list _ (by decide) h2
    rw [lookup_addPerc_mem _ hm0 hp, e1, e2]
    rw [e2] at h3
    rw [ratio_of_averages _ _ _ hn h3]
  · intro hp
    obtain ⟨h1, h2, h3⟩ := (present_after_addPerc _ hm0 hd0).2.1 hp
    obtain ⟨e1, hn⟩ := getValue_avgGroup_of_mem list _ (by decide) h1
    obtain ⟨e2, _⟩ := getValue_avgGroup_of_mem list _ (by decide) h2
    rw [lookup_addPerc_disk _ hd0 hp, e1, e2]
    rw [e2] at h3
    rw [ratio_of_averages _ _ _ hn h3]

/-- C16 on two instances with 50 of 100 and 50 of 300 bytes: `mem_perc` is
100 * 100 / 400 = 25, which is not the average of the percentages 50 and 50 / 3. -/
theorem perc_is_ratio_of_sums_witness :
    onlyRecognized exampleRatio = true ∧
    ∃ out, (avgMetrics exampleRatio).lookup "a" = some out ∧
      out.lookup "mem_perc" = some 25 ∧
      out.lookup "mem_perc" ≠ some ((50 / 100 * 100 + 50 / 300 * 100) / 2) := by
  obtain ⟨out, h1, h2, _⟩ := perc_is_ratio_of_sums exampleRatio (by decide) "a" _ rfl
  have hout : (avgMetrics exampleRatio).lookup "a" = some (addPerc (avgGroup
      [AList.insert "mem_rss_bytes" 50 (AList.singleton "mem_limit_bytes" 100),
       AList.insert "mem_rss_bytes" 50 (AList.singleton "mem_limit_bytes" 300)])) := by
    rw [lookup_avgMetrics]
    rfl
  have hmem : "mem_perc" ∈ out := by
    rw [hout] at h1
    cases h1
    decide!
  have hval := h2 hmem
  have h25 : out.lookup "mem_perc" = some 25 := by
    rw [hval]
    decide!
  refine ⟨by decide, out, h1, h25, ?_⟩
  rw [h25]
  norm_num

/-! ## The pattern and the match of the specification -/

theorem matchRep_iff (n : Nat) (l : List Char) :
    matchRep n l = true ↔ n ≤ l.length ∧ ∀ c ∈ l.take n, isHexOrDash c = true := by
  induction n generalizing l with
  | zero => simp [matchRep]
  | succ n ih =>
    cases l with
    | nil => simp [matchRep]
    | cons c l =>
      simp only [matchRep, Bool.and_eq_true, ih, List.length_cons, Nat.add_le_add_iff_right,
        List.take_succ_cons, List.mem_cons, forall_eq_or_imp]
      tauto

theorem loopSpec_nil (n : Nat) : ¬ loopSpec [] n := by
  intro h
  have h2 := h.2.1
  simp at h2

theorem loopSpec_cons_zero (c : Char) (cs : List Char) :
    loopSpec (c :: cs) 0 ↔ c = '.' ∧ matchRep 36 cs = true := by
  simp [loopSpec]

theorem loopSpec_cons_succ (c : Char) (cs : List Char) (n : Nat) :
    loopSpec (c :: cs) (n + 1) ↔ isWhitespace c = false ∧ loopSpec cs n := by
  simp [loopSpec, and_assoc]

/-- The loop returns the greatest length at which the rest of the pattern matches,
and `none` when there is no such length. -/
theorem matchLoop_spec (cs : List Char) :
    (∀ n, matchLoop cs = some n → loopSpec cs n ∧ ∀ n1, loopSpec cs n1 → n1 ≤ n) ∧
    (matchLoop cs = none → ∀ n1, ¬ loopSpec cs n1) := by
  induction cs with
  | nil =>
    constructor
    · intro n h
      simp [matchLoop] at h
    · intro _ n1
      exact loopSpec_nil n1
  | cons c cs ih =>
    obtain ⟨ih1, ih2⟩ := ih
    cases hin : (if isWhitespace c = true then none else matchLoop cs) with
    | some m =>
      have hw : isWhitespace c = false := by
        cases hw : isWhitespace c with
        | false => rfl
        | true => simp [hw] at hin
      have hm : matchLoop cs = some m := by
        simpa [hw] using hin
      have hval : matchLoop (c :: cs) = some (m + 1) := by
        unfold matchLoop
        rw [hin]
      rw [hval]
      obtain ⟨hs, hmax⟩ := ih1 m hm
      constructor
      · intro n hn
        cases hn
        refine ⟨(loopSpec_cons_succ c cs m).2 ⟨hw, hs⟩, ?_⟩
        intro n1 h1
        cases n1 with
        | zero => exact Nat.zero_le _
        | succ n1 =>
          have := hmax n1 ((loopSpec_cons_succ c cs n1).1 h1).2
          omega
      · intro h
        cases h
    | none =>
      have hno : ∀ n1, ¬ loopSpec (c :: cs) (n1 + 1) := by
        intro n1 h1
        obtain ⟨hw, hs⟩ := (loopSpec_cons_succ c cs n1).1 h1
        have hm : matchLoop cs = none := by
          simpa [hw] using hin
        exact ih2 hm n1 hs
      cases hdot : (c == '.' && matchRep 36 cs) with
      | true =>
        have hval : matchLoop (c :: cs) = some 0 := by
          unfold matchLoop
          rw [hin]
          simp only [hdot]
          rfl
        have h0 : loopSpec (c :: cs) 0 := by
          rw [loopSpec_cons_zero]
          simpa using hdot
        rw [hval]
        constructor
        · intro n hn
          cases hn
          refine ⟨h0, ?_⟩
          intro n1 h1
          cases n1 with
          | zero => exact Nat.le_refl _
          | succ n1 => exact absurd h1 (hno n1)
        · intro h
          cases h
      | false =>
        have hval : matchLoop (c :: cs) = none := by
          unfold matchLoop
          rw [hin]
          simp only [hdot]
          rfl
        rw [hval]
        constructor
        · intro n hn
          cases hn
        · intro _ n1 h1
          cases n1 with
          | zero =>
            rw [loopSpec_cons_zero] at h1
            simp [h1.1, h1.2] at hdot
          | succ n1 => exact hno n1 h1

theorem matchHere_spec (cs : List Char) :
    (∀ n, matchHere cs = some n →
      1 ≤ n ∧ loopSpec cs n ∧ ∀ n1, 1 ≤ n1 → loopSpec cs n1 → n1 ≤ n) ∧
    (matchHere cs = none → ∀ n1, 1 ≤ n1 → ¬ loopSpec cs n1) := by
  cases cs with
  | nil =>
    constructor
    · intro n h
      simp [matchHere] at h
    · intro _ n1 _
      exact loopSpec_nil n1
  | cons c cs =>
    obtain ⟨h1, h2⟩ := matchLoop_spec cs
    cases hw : isWhitespace c with
    | true =>
      have hval : matchHere (c :: cs) = none := by
        simp [matchHere, hw]
      rw [hval]
      constructor
      · intro n hn
        cases hn
      · intro _ n1 hn1 hs
        obtain ⟨m, rfl⟩ : ∃ m, n1 = m + 1 := ⟨n1 - 1, by omega⟩
        have := ((loopSpec_cons_succ c cs m).1 hs).1
        rw [hw] at this
        cases this
    | false =>
      cases hm : matchLoop cs with
      | none =>
        have hval : matchHere (c :: cs) = none := by
          simp [matchHere, hw, hm]
        rw [hval]
        constructor
        · intro n hn
          cases hn
        · intro _ n1 hn1 hs
          obtain ⟨m, rfl⟩ : ∃ m, n1 = m + 1 := ⟨n1 - 1, by omega⟩
          exact h2 hm m ((loopSpec_cons_succ c cs m).1 hs).2
      | some m =>
        have hval : matchHere (c :: cs) = some (m + 1) := by
          simp [matchHere, hw, hm]
        rw [hval]
        obtain ⟨hs, hmax⟩ := h1 m hm
        constructor
        · intro n hn
          cases hn
          refine ⟨by omega, (loopSpec_cons_succ c cs m).2 ⟨hw, hs⟩, ?_⟩
          intro n1 hn1 hs1
          obtain ⟨k, rfl⟩ : ∃ k, n1 = k + 1 := ⟨n1 - 1, by omega⟩
          have := hmax k ((loopSpec_cons_succ c cs k).1 hs1).2
          omega
        · intro h
          cases h

/-- The search returns the name of the match at the least start index, of the
greatest length there, and `none` when no match starts anywhere. -/
theorem findSubmatch_spec (cs : List Char) :
    (∀ name, findSubmatch cs = some name →
      ∃ i n, 1 ≤ n ∧ loopSpec (cs.drop i) n ∧ name = (cs.drop i).take n ∧
        (∀ i1 n1, 1 ≤ n1 → loopSpec (cs.drop i1) n1 → i ≤ i1) ∧
        (∀ n1, 1 ≤ n1 → loopSpec (cs.drop i) n1 → n1 ≤ n)) ∧
    (findSubmatch cs = none → ∀ i n, 1 ≤ n → ¬ loopSpec (cs.drop i) n) := by
  induction cs with
  | nil =>
    constructor
    · intro name h
      simp [findSubmatch] at h
    · intro _ i n _ hs
      rw [List.drop_nil] at hs
      exact loopSpec_nil n hs
  | cons c cs ih =>
    obtain ⟨ih1, ih2⟩ := ih
    obtain ⟨h1, h2⟩ := matchHere_spec (c :: cs)
    cases hh : matchHere (c :: cs) with
    | some n =>
      have hval : findSubmatch (c :: cs) = some ((c :: cs).take n) := by
        unfold findSubmatch
        rw [hh]
      rw [hval]
      obtain ⟨hn, hs, hmax⟩ := h1 n hh
      constructor
      · intro name hname
        cases hname
        exact ⟨0, n, hn, hs, rfl, fun i1 _ _ _ => Nat.zero_le i1, hmax⟩
      · intro h
        cases h
    | none =>
      have hval : findSubmatch (c :: cs) = findSubmatch cs := by
        conv_lhs => unfold findSubmatch
        rw [hh]
      rw [hval]
      have hzero : ∀ n1, 1 ≤ n1 → ¬ loopSpec (c :: cs) n1 := h2 hh
      constructor
      · intro name hname
        obtain ⟨i, n, hn, hs, hnm, hleast, hmax⟩ := ih1 name hname
        refine ⟨i + 1, n, hn, hs, hnm, ?_, hmax⟩
        intro i1 n1 hn1 hs1
        cases i1 with
        | zero => exact absurd hs1 (hzero n1 hn1)
        | succ i1 =>
          have := hleast i1 n1 hn1 hs1
          omega
      · intro hnone i n hn hs
        cases i with
        | zero => exact hzero n hn hs
        | succ i => exact ih2 hnone i n hn hs

theorem specMatchAt_iff (s : List Char) (i j : Nat) :
    specMatchAt s i j ↔ i < j ∧ loopSpec (s.drop i) (j - i) := by
  unfold specMatchAt loopSpec
  constructor
  · rintro ⟨hij, h1, h2, h3, h4⟩
    have e1 : i + (j - i) = j := by omega
    have e2 : i + (j - i + 1) = j + 1 := by omega
    refine ⟨hij, h1, ?_, ?_⟩
    · rw [List.drop_drop, e1]
      exact h2
    · rw [List.drop_drop, e2, matchRep_iff]
      exact ⟨h3, h4⟩
  · rintro ⟨hij, h1, h2, h3⟩
    have e1 : i + (j - i) = j := by omega
    have e2 : i + (j - i + 1) = j + 1 := by omega
    rw [List.drop_drop, e1] at h2
    rw [List.drop_drop, e2, matchRep_iff] at h3
    exact ⟨hij, h1, h2, h3.1, h3.2⟩

/-- C15: the extracted task name is the name of the first occurrence of the
pattern, matched greedily.  A name is extracted exactly when a match starts at some
index; the name is then `s[i..j)` for the least start index `i` of a match and the
greatest `j` that ends the name of a match starting at `i`; otherwise the record
leaves the accumulator unchanged. -/
theorem extractName_first_greedy (s : String) :
    ((extractName s).isSome ↔ ∃ i j, specMatchAt s.data i j) ∧
    (∀ name, extractName s = some name →
      ∃ i j, specMatchAt s.data i j ∧
        (∀ i1 j1, specMatchAt s.data i1 j1 → i ≤ i1) ∧
        (∀ j1, specMatchAt s.data i j1 → j1 ≤ j) ∧
        name.data = (s.data.drop i).take (j - i)) ∧
    (∀ (m : TasksMap) (task : Task), task.ExecutorId = s → extractName s = none →
      flattenStep m task = some m) := by
  obtain ⟨h1, h2⟩ := findSubmatch_spec s.data
  have hsome : ∀ name, extractName s = some name →
      ∃ i j, specMatchAt s.data i j ∧
        (∀ i1 j1, specMatchAt s.data i1 j1 → i ≤ i1) ∧
        (∀ j1, specMatchAt s.data i j1 → j1 ≤ j) ∧
        name.data = (s.data.drop i).take (j - i) := by
    intro name hname
    unfold extractName at hname
    cases hf : findSubmatch s.data with
    | none => simp [hf] at hname
    | some l =>
      simp only [hf, Option.map_some', Option.some.injEq] at hname
      obtain ⟨i, n, hn, hs, hl, hleast, hmax⟩ := h1 l hf
      have e : i + n - i = n := by omega
      refine ⟨i, i + n, ?_, ?_, ?_, ?_⟩
      · rw [specMatchAt_iff, e]
        exact ⟨by omega, hs⟩
      · intro i1 j1 hm
        rw [specMatchAt_iff] at hm
        exact hleast i1 (j1 - i1) (by omega) hm.2
      · intro j1 hm
        rw [specMatchAt_iff] at hm
        have := hmax (j1 - i) (by omega) hm.2
        omega
      · rw [← hname, e, hl]
  refine ⟨?_, hsome, ?_⟩
  · constructor
    · intro h
      obtain ⟨name, hname⟩ := Option.isSome_iff_exists.1 h
      obtain ⟨i, j, hm, _⟩ := hsome name hname
      exact ⟨i, j, hm⟩
    · rintro ⟨i, j, hm⟩
      rw [specMatchAt_iff] at hm
      unfold extractName
      cases hf : findSubmatch s.data with
      | none => exact absurd hm.2 (h2 hf i (j - i) (by omega))
      | some l => rfl
  · intro m task hid hnone
    rw [← hid] at hnone
    exact flattenStep_of_none hnone

/-- C15 on an executor id with an earlier false start and two candidate ends: the
name is the one of the first match, with the longest name. -/
theorem extractName_first_greedy_witness :
    extractName exampleTwoUuids = some "b.c.1a2b3c4d-0000-0000-0000-000000000000" ∧
    ∃ i j, specMatchAt exampleTwoUuids.data i j ∧
      (∀ i1 j1, specMatchAt exampleTwoUuids.data i1 j1 → i ≤ i1) ∧
      (∀ j1, specMatchAt exampleTwoUuids.data i j1 → j1 ≤ j) ∧
      "b.c.1a2b3c4d-0000-0000-0000-000000000000".data =
        (exampleTwoUuids.data.drop i).take (j - i) :=
  ⟨by decide, (extractName_first_greedy exampleTwoUuids).2.1 _ (by decide)⟩

/-! ## The members of a group -/

theorem mem_buildMap_iff {s : Statistics} {a : Metrics} (h : buildMap s = some a) (k : String) :
    k ∈ a ↔ ∃ e ∈ fieldTable, e.1 = k ∧ e.2 s ≠ JsonValue.null := by
  have hwt := buildMap_wellTyped h
  obtain ⟨a1, ha1, hspec⟩ := buildMap_some s hwt
  rw [h] at ha1
  cases ha1
  rw [← AList.lookup_isSome, Option.isSome_iff_exists]
  constructor
  · rintro ⟨x, hx⟩
    obtain ⟨e, he, hk, hv⟩ := (hspec k x).1 hx
    exact ⟨e, he, hk, by rw [hv]; simp⟩
  · rintro ⟨e, he, hk, hv⟩
    rcases (isNullOrNumber_iff _).1 (hwt e he) with h0 | ⟨x, hx⟩
    · exact absurd h0 hv
    · exact ⟨x, (hspec k x).2 ⟨e, he, hk, hx⟩⟩

theorem mem_group_flattenStep {m m1 : TasksMap} {task : Task}
    (h : flattenStep m task = some m1) (t : String) (a : Metrics) :
    a ∈ (m1.lookup t).getD [] ↔
      a ∈ (m.lookup t).getD [] ∨
        (extractName task.ExecutorId = some t ∧ buildMap task.Statistics = some a) := by
  cases hn : extractName task.ExecutorId with
  | none =>
    rw [flattenStep_of_none hn] at h
    cases h
    simp
  | some name =>
    rw [flattenStep_of_some hn] at h
    cases hb : buildMap task.Statistics with
    | none => simp [hb] at h
    | some b =>
      simp only [hb, Option.map_some', Option.some.injEq] at h
      subst h
      by_cases hname : name = t
      · subst hname
        simp [AList.lookup_insert, eq_comm]
      · have hne : t ≠ name := fun e => hname e.symm
        simp [AList.lookup_insert_ne hne, hname]

theorem mem_group_foldlM_flattenStep (tasks : List Task) (init acc : TasksMap)
    (h : tasks.foldlM flattenStep init = some acc) (t : String) (a : Metrics) :
    a ∈ (acc.lookup t).getD [] ↔
      a ∈ (init.lookup t).getD [] ∨
        ∃ task ∈ tasks, extractName task.ExecutorId = some t ∧
          buildMap task.Statistics = some a := by
  induction tasks generalizing init with
  | nil =>
    simp only [List.foldlM_nil] at h
    cases h
    simp
  | cons task tasks ih =>
    rw [foldlM_flattenStep_cons] at h
    cases hs : flattenStep init task with
    | none => simp [hs] at h
    | some m1 =>
      rw [hs] at h
      rw [ih m1 h, mem_group_flattenStep hs t a]
      simp only [List.mem_cons, exists_eq_or_imp]
      tauto

/-- The members of the group of `t` are the maps built from the records whose
executor id extracts to `t`. -/
theorem mem_group_flattenData {tasks : List Task} {acc : TasksMap}
    (h : flattenData tasks = some acc) {t : String} {list : List Metrics}
    (hl : acc.lookup t = some list) (a : Metrics) :
    a ∈ list ↔ ∃ task ∈ tasks, extractName task.ExecutorId = some t ∧
      buildMap task.Statistics = some a := by
  have hm := mem_group_foldlM_flattenStep tasks ∅ acc h t a
  rw [hl] at hm
  simpa using hm

/-- C13: output keys come only from the data.  For every sequence of records on
which `flattenData` returns and every task group of `avgMetrics (flattenData
records)`, a key other than `instances`, `mem_perc` and `disk_perc` is present in
the averaged map exactly when it names a recognized field that is not `null` in at
least one record of the group; such a key is a recognized metric name. -/
theorem output_keys_from_data (tasks : List Task) (acc : TasksMap)
    (h : flattenData tasks = some acc) (t : String) (out : Metrics)
    (ht : (avgMetrics acc).lookup t = some out) (k : String)
    (h1 : k ≠ "instances") (h2 : k ≠ "mem_perc") (h3 : k ≠ "disk_perc") :
    (k ∈ out ↔ ∃ task ∈ tasks, extractName task.ExecutorId = some t ∧
      ∃ e ∈ fieldTable, e.1 = k ∧ e.2 task.Statistics ≠ JsonValue.null) ∧
    (k ∈ out → k ∈ recognizedNames) := by
  obtain ⟨list, hl, rfl⟩ := avgMetrics_lookup_some ht
  have hiff : k ∈ addPerc (avgGroup list) ↔ ∃ task ∈ tasks,
      extractName task.ExecutorId = some t ∧
        ∃ e ∈ fieldTable, e.1 = k ∧ e.2 task.Statistics ≠ JsonValue.null := by
    rw [mem_addPerc_iff _ _ h2 h3, mem_avgGroup_iff]
    constructor
    · rintro (hk | ⟨a, ha, hka⟩)
      · exact absurd hk h1
      · obtain ⟨task, htask, hname, hb⟩ := (mem_group_flattenData h hl a).1 ha
        exact ⟨task, htask, hname, (mem_buildMap_iff hb k).1 hka⟩
    · rintro ⟨task, htask, hname, hfield⟩
      right
      have hwt := (foldlM_flattenStep_some_iff tasks ∅).1 ⟨acc, h⟩ task htask
        (by rw [hname]; rfl)
      obtain ⟨a, ha, _⟩ := buildMap_some task.Statistics hwt
      exact ⟨a, (mem_group_flattenData h hl a).2 ⟨task, htask, hname, ha⟩,
        (mem_buildMap_iff ha k).2 hfield⟩
  refine ⟨hiff, ?_⟩
  intro hk
  obtain ⟨_, _, _, e, he, hke, _⟩ := hiff.1 hk
  rw [← hke]
  exact List.mem_map_of_mem Prod.fst he

/-- C13 on the example records: the group `a` has `mem_rss_bytes`, set in its
records, and has no `cpus_limit`, which only the record without a match sets. -/
theorem output_keys_from_data_witness :
    ∃ acc out, flattenData exampleTasks = some acc ∧ (avgMetrics acc).lookup "a" = some out ∧
      "mem_rss_bytes" ∈ out ∧ "mem_rss_bytes" ∈ recognizedNames ∧ "cpus_limit" ∉ out := by
  have hkey := output_keys_from_data exampleTasks _ rfl "a" _ rfl "mem_rss_bytes"
    (by decide) (by decide) (by decide)
  have hmem := hkey.1.2 ⟨exampleRecord, by simp [exampleTasks, exampleRecord], by decide,
    ("mem_rss_bytes", Statistics.MemRssBytes), by simp [fieldTable], rfl,
    by intro hnull; cases hnull⟩
  exact ⟨_, _, rfl, rfl, hmem, hkey.2 hmem, by decide!⟩

/-! ## Task names in the output lines -/

theorem extractName_name_ok {s name : String} (h : extractName s = some name) :
    name ≠ "" ∧ ∀ c ∈ name.data, isWhitespace c = false := by
  unfold extractName at h
  cases hf : findSubmatch s.data with
  | none => simp [hf] at h
  | some l =>
    simp only [hf, Option.map_some', Option.some.injEq] at h
    obtain ⟨i, n, hn, hs, hl, _, _⟩ := (findSubmatch_spec s.data).1 l hf
    have hdata : name.data = (s.data.drop i).take n := by
      rw [← h, hl]
    constructor
    · intro hempty
      have hlen : ((s.data.drop i).take n).length = 0 := by
        rw [← hdata, hempty]
        rfl
      have hdot := hs.2.1
      have hlt : n < (s.data.drop i).length := by
        by_contra hge
        rw [List.drop_eq_nil_of_le (by omega)] at hdot
        simp at hdot
      rw [List.length_take] at hlen
      omega
    · rw [hdata]
      exact hs.1

theorem group_key_of_flattenData {tasks : List Task} {acc : TasksMap}
    (h : flattenData tasks = some acc) {t : String} (ht : t ∈ acc) :
    ∃ task ∈ tasks, extractName task.ExecutorId = some t := by
  obtain ⟨list, hl⟩ := Option.isSome_iff_exists.1 (AList.lookup_isSome.2 ht)
  obtain ⟨hlen, hne⟩ := lookup_flattenData h hl
  have hpos : 0 < matchCount tasks t := by
    rw [← hlen]
    exact List.length_pos.2 hne
  unfold matchCount at hpos
  obtain ⟨task, htask, hp⟩ := List.countP_pos_iff.1 hpos
  exact ⟨task, htask, by simpa using hp⟩

theorem takeWhile_append_stop (p : Char → Bool) (pre rest : List Char) (c : Char)
    (hpre : ∀ d ∈ pre, p d = true) (hc : p c = false) :
    (pre ++ c :: rest).takeWhile p = pre := by
  induction pre with
  | nil => simp [List.takeWhile, hc]
  | cons d pre ih =>
    have hd : p d = true := hpre d (List.mem_cons_self _ _)
    simp [List.takeWhile, hd, ih (fun e he => hpre e (List.mem_cons_of_mem _ he))]

theorem not_space_of_not_whitespace {c : Char} (h : isWhitespace c = false) :
    (c != ' ') = true := by
  by_contra hc
  have : c = ' ' := by simpa using hc
  rw [this] at h
  exact absurd h (by decide)

/-- C17: every task name that `flattenData` uses as a group key is non-empty and
holds no whitespace character; so in every line that
`genLineProto (avgMetrics (flattenData records))` emits the text before the first
space is `mesos_tasks,task_name=` followed by the task name. -/
theorem task_name_before_first_space (tasks : List Task) (acc : TasksMap)
    (h : flattenData tasks = some acc) :
    (∀ t, t ∈ acc → t ≠ "" ∧ ∀ c ∈ t.data, isWhitespace c = false) ∧
    genLineProto (avgMetrics acc) =
      String.intercalate "\n" ((avgMetrics acc).entries.map (fun g =>
        "mesos_tasks,task_name=" ++ g.1 ++ " " ++ String.intercalate "," (fieldList g.2))) ∧
    (∀ g ∈ (avgMetrics acc).entries,
      ("mesos_tasks,task_name=" ++ g.1 ++ " " ++
          String.intercalate "," (fieldList g.2)).data.takeWhile (fun c => c != ' ') =
        ("mesos_tasks,task_name=" ++ g.1).data) := by
  have hnames : ∀ t, t ∈ acc → t ≠ "" ∧ ∀ c ∈ t.data, isWhitespace c = false := by
    intro t ht
    obtain ⟨task, _, hname⟩ := group_key_of_flattenData h ht
    exact extractName_name_ok hname
  refine ⟨hnames, genLineProto_eq_map _, ?_⟩
  intro g hg
  have hmem : g.1 ∈ acc := by
    rw [← mem_avgMetrics_iff, AList.mem_keys]
    exact List.mem_keys_of_mem hg
  have hdata : ("mesos_tasks,task_name=" ++ g.1 ++ " " ++
      String.intercalate "," (fieldList g.2)).data =
      ("mesos_tasks,task_name=" ++ g.1).data ++
        ' ' :: (String.intercalate "," (fieldList g.2)).data := by
    simp [String.data_append]
  rw [hdata]
  apply takeWhile_append_stop
  · intro d hd
    rw [String.data_append] at hd
    rcases List.mem_append.1 hd with h1 | h1
    · have hprefix : ∀ e ∈ "mesos_tasks,task_name=".data, (e != ' ') = true := by decide
      exact hprefix d h1
    · exact not_space_of_not_whitespace ((hnames g.1 hmem).2 d h1)
  · rfl

/-- C17 on the example records: the keys `a` and `b` are non-empty and free of
whitespace. -/
theorem task_name_before_first_space_witness :
    ∃ acc, flattenData exampleTasks = some acc ∧ "a" ∈ acc ∧
      (∀ t, t ∈ acc → t ≠ "" ∧ ∀ c ∈ t.data, isWhitespace c = false) :=
  ⟨_, rfl, by decide, (task_name_before_first_space exampleTasks _ rfl).1⟩

end MesosTasks
